import Mathlib

/-!
Verification of the Metropolis DAG job orchestrator core against its
natural-language specification.  The definitions below are shallow
embeddings of the Python/Lua source files (`lua_scripts.py`,
`worker.py`, `validation.py`, `main.py`, `janitor.py`); theorems settle
the spec's claims about them.
-/

namespace Metropolis

/-! ## Association lists

Model of Python dicts and Redis hashes / sorted sets: ordered lists of
key-value pairs.  `alGet` reads the first matching key, `alUpdate`
rewrites the first matching key in place, `alSet` models Redis
`HSET`/`ZADD` (overwrite or create), `alIncr` models Redis `HINCRBY`
(which creates a missing field starting from 0). -/

def alGet {κ β : Type} [DecidableEq κ] (k : κ) : List (κ × β) → Option β
  | [] => none
  | p :: rest => if p.1 = k then some p.2 else alGet k rest

def alUpdate {κ β : Type} [DecidableEq κ] (k : κ) (f : β → β) : List (κ × β) → List (κ × β)
  | [] => []
  | p :: rest => if p.1 = k then (p.1, f p.2) :: rest else p :: alUpdate k f rest

def alSet {κ β : Type} [DecidableEq κ] (k : κ) (v : β) : List (κ × β) → List (κ × β)
  | [] => [(k, v)]
  | p :: rest => if p.1 = k then (k, v) :: rest else p :: alSet k v rest

def alIncr {κ : Type} [DecidableEq κ] (k : κ) (δ : Int) (l : List (κ × Int)) : List (κ × Int) :=
  match alGet k l with
  | some v => alSet k (v + δ) l
  | none => l ++ [(k, δ)]

def alRemove {κ β : Type} [DecidableEq κ] (k : κ) (l : List (κ × β)) : List (κ × β) :=
  l.filter (fun p => ¬ p.1 = k)

/-- Occurrence count of an element in a list. -/
def countKey {κ : Type} [DecidableEq κ] (a : κ) : List κ → Nat
  | [] => 0
  | b :: l => (if b = a then 1 else 0) + countKey a l

/-! ## Broker state

Per-run view of the Redis keys used by the core (`broker.py` key layout):
ready list, delayed sorted set, dead-letter list, lease keys, and the
run-scoped maps `deps_count`, `reverse_graph`, `jobs_count`.
Job identifiers are natural numbers (DB primary keys). -/

structure BrokerState where
  ready : List Nat
  delayed : List (Nat × Int)
  deadLetter : List Nat
  locks : List (Nat × String)
  depsCount : List (Nat × Int)
  reverseGraph : List (Nat × List Nat)
  jobsCount : Int
  deriving Repr, DecidableEq

/-! ## Completion script (`lua_scripts.py`, `COMPLETE_JOB_SCRIPT`)

The Lua loop: for each downstream id, `HINCRBY deps_count id -1`; if the
new value is 0, collect it; after the loop, `RPUSH` the collected ids to
the ready list (if any), and return the collected list. -/

def completeLoop (deps : List (Nat × Int)) (acc : List Nat) :
    List Nat → List (Nat × Int) × List Nat
  | [] => (deps, acc)
  | j :: rest =>
    let deps' := alIncr j (-1) deps
    let acc' := if alGet j deps' = some 0 then acc ++ [j] else acc
    completeLoop deps' acc' rest

def completeScript (st : BrokerState) (argv : List Nat) : BrokerState × List Nat :=
  let r := completeLoop st.depsCount [] argv
  let ready' := if r.2 ≠ [] then st.ready ++ r.2 else st.ready
  ({ st with depsCount := r.1, ready := ready' }, r.2)

/-- Iterated invocation of the completion script; collects all returned
(newly ready) identifiers across the sequence of calls. -/
def completeMany (st : BrokerState) : List (List Nat) → BrokerState × List Nat
  | [] => (st, [])
  | argv :: rest =>
    let r := completeScript st argv
    let r' := completeMany r.1 rest
    (r'.1, r.2 ++ r'.2)

/-- Initial (pre-call) counter value of a job id, with Redis's missing-field
default of 0. -/
def depVal (deps : List (Nat × Int)) (j : Nat) : Int := (alGet j deps).getD 0

/-- A run state whose dependency-counter map holds one child (job 7) with a
single unsatisfied parent, as the bootstrapper writes it. -/
def dupCompletionState : BrokerState :=
  { ready := [], delayed := [], deadLetter := [], locks := [],
    depsCount := [(7, 1)], reverseGraph := [], jobsCount := 1 }

/-! ## Worker (`worker.py`)

Job and run status enums from `models.py`; the worker's success path,
failure path (the `except` branch) and cleanup (the `finally` block),
embedded from `run_worker`. -/

inductive JobStatus
  | PENDING | QUEUED | RUNNING | SUCCESS | FAILED | CANCELLED | RETRYING
  deriving Repr, DecidableEq

inductive PipelineRunStatus
  | PENDING | RUNNING | SUCCESS | FAILED | CANCELLED | PAUSED
  deriving Repr, DecidableEq

/-- A job row as the worker reads and writes it (`models.Job` is imported by
`worker.py`; its fields are those the worker touches: `status`,
`retry_count`, `logs`, plus identity). -/
structure JobRec where
  id : Nat
  task_id : String
  status : JobStatus
  retry_count : Nat
  logs : Option String
  deriving Repr, DecidableEq

def LOCK_TTL_SECONDS : Nat := 300
def MAX_RETRY : Nat := 3
def RETRY_DELAY_BASE_SECONDS : Int := 10

/-- The worker's `except` branch for a held job: increment `retry_count`;
if it now exceeds `MAX_RETRY`, set the job FAILED, store the error text,
mark the run FAILED and `LPUSH` the job to the dead-letter list; otherwise
`ZADD` the job into the delayed set due at
`now + RETRY_DELAY_BASE_SECONDS * 2^(retry_count - 1)`.
(The source sets no RETRYING status in this branch.) -/
def handleTaskFailure (now : Int) (err : String) (job : JobRec)
    (runStatus : PipelineRunStatus) (st : BrokerState) :
    JobRec × PipelineRunStatus × BrokerState :=
  let job1 := { job with retry_count := job.retry_count + 1 }
  if job1.retry_count > MAX_RETRY then
    ({ job1 with status := .FAILED, logs := some err }, .FAILED,
     { st with deadLetter := job.id :: st.deadLetter })
  else
    let delay : Int := RETRY_DELAY_BASE_SECONDS * 2 ^ (job1.retry_count - 1)
    (job1, runStatus, { st with delayed := alSet job.id (now + delay) st.delayed })

/-- The worker's success path: read the job's reverse-graph entry, run the
completion script on it, set the job SUCCESS, `DECR` the run's jobs-count,
and mark the run SUCCESS when the count reaches 0. -/
def handleTaskSuccess (job : JobRec) (runStatus : PipelineRunStatus) (st : BrokerState) :
    JobRec × PipelineRunStatus × BrokerState :=
  let downstream := (alGet job.id st.reverseGraph).getD []
  let st1 := (completeScript st downstream).1
  let job' := { job with status := .SUCCESS }
  let st2 := { st1 with jobsCount := st1.jobsCount - 1 }
  let runStatus' := if st2.jobsCount = 0 then .SUCCESS else runStatus
  (job', runStatus', st2)

/-- Python exceptions that the worker's cleanup can raise. -/
inductive PyError
  | attributeError
  deriving Repr, DecidableEq

/-- The worker's `finally` block: when a lock key was computed, it logs with
`extra={"job_id": job.id}` — an `AttributeError` when `job` is still
`None` — and then deletes the lock key. -/
def runFinally (job : Option JobRec) (lockKey : Option Nat) (st : BrokerState) :
    Except PyError BrokerState :=
  match lockKey with
  | none => .ok st
  | some jid =>
    match job with
    | none => .error .attributeError
    | some _ => .ok { st with locks := alRemove jid st.locks }

/-- Lease acquisition: Redis `SET key worker_id NX EX ttl` — set-if-absent. -/
def acquireLease (jobId : Nat) (workerId : String) (st : BrokerState) : Bool × BrokerState :=
  match alGet jobId st.locks with
  | some _ => (false, st)
  | none => (true, { st with locks := alSet jobId workerId st.locks })

/-- Outcome of one worker-loop iteration up to the lease decision. -/
inductive LeaseStepResult
  | crashed (e : PyError) (st : BrokerState)
  | continued (st : BrokerState)
  | proceeded (st : BrokerState)
  deriving Repr, DecidableEq

/-- One pass of `run_worker` from a popped job id through the lease
attempt: on denial the `continue` routes through the `finally` block with
`job = None` and `lock_key` set. -/
def leaseStep (jobId : Nat) (workerId : String) (st : BrokerState) : LeaseStepResult :=
  let r := acquireLease jobId workerId st
  if r.1 then .proceeded r.2
  else
    match runFinally none (some jobId) r.2 with
    | .error e => .crashed e r.2
    | .ok st' => .continued st'

/-- One worker iteration in which the task body (or any later call) raises
while the worker holds the job: the job had been set RUNNING, the `except`
branch performs the retry/dead-letter bookkeeping, and the `finally` block
deletes the lock key. -/
def workerIterFailure (now : Int) (err : String) (job : JobRec)
    (runStatus : PipelineRunStatus) (st : BrokerState) :
    JobRec × PipelineRunStatus × BrokerState :=
  let r := handleTaskFailure now err { job with status := .RUNNING } runStatus st
  match runFinally (some r.1) (some job.id) r.2.2 with
  | .ok st' => (r.1, r.2.1, st')
  | .error _ => (r.1, r.2.1, r.2.2)

/-- Repeated execution of a job whose task body always raises: each fuel
step is one attempt (pop, run, fail, clean up); stops once the job is
FAILED.  Returns the attempt count and the final state. -/
def failAlways (now : Int) (err : String) :
    Nat → JobRec → PipelineRunStatus → BrokerState → Nat →
      Nat × JobRec × PipelineRunStatus × BrokerState
  | 0, job, run, st, attempts => (attempts, job, run, st)
  | fuel + 1, job, run, st, attempts =>
    let r := workerIterFailure now err job run st
    if r.1.status = .FAILED then (attempts + 1, r.1, r.2.1, r.2.2)
    else failAlways now err fuel r.1 r.2.1 r.2.2 (attempts + 1)

def emptyBroker : BrokerState :=
  { ready := [], delayed := [], deadLetter := [], locks := [],
    depsCount := [], reverseGraph := [], jobsCount := 0 }

/-! ## Run-level accounting (store rows + broker) -/

/-- Rewrite the job row with the given id (the worker mutates the ORM row
and commits). -/
def updateJob (i : Nat) (f : JobRec → JobRec) (jobs : List JobRec) : List JobRec :=
  jobs.map (fun j => if j.id = i then f j else j)

/-- Number of a run's jobs whose status is not SUCCESS. -/
def countNonSuccess : List JobRec → Nat
  | [] => 0
  | j :: rest => (if j.status = .SUCCESS then 0 else 1) + countNonSuccess rest

/-- Number of a run's jobs not in a terminal state (SUCCESS or FAILED). -/
def countNonTerminal : List JobRec → Nat
  | [] => 0
  | j :: rest => (if j.status = .SUCCESS ∨ j.status = .FAILED then 0 else 1) + countNonTerminal rest

/-- Store-plus-broker view of one run: its job rows, its status, and the
broker keys. -/
structure RunState where
  jobs : List JobRec
  runStatus : PipelineRunStatus
  broker : BrokerState
  deriving Repr, DecidableEq

/-- A worker completes job `i` successfully: load the row, run the success
path, commit the updated row, run status and broker state. -/
def applySuccess (i : Nat) (rs : RunState) : RunState :=
  match rs.jobs.find? (fun j => j.id = i) with
  | none => rs
  | some job =>
    let r := handleTaskSuccess job rs.runStatus rs.broker
    { jobs := updateJob i (fun _ => r.1) rs.jobs, runStatus := r.2.1, broker := r.2.2 }

/-- A worker's attempt at job `i` fails: load the row, run the `except`
branch and the `finally` cleanup, commit the results. -/
def applyFailure (now : Int) (err : String) (i : Nat) (rs : RunState) : RunState :=
  match rs.jobs.find? (fun j => j.id = i) with
  | none => rs
  | some job =>
    let r := workerIterFailure now err job rs.runStatus rs.broker
    { jobs := updateJob i (fun _ => r.1) rs.jobs, runStatus := r.2.1, broker := r.2.2 }

/-- A single-job run (`jobs_count` = 1) whose job has exhausted its retries,
after the worker processes the final, fatal attempt. -/
def failedRunCex : RunState :=
  applyFailure 0 "boom" 1
    { jobs := [⟨1, "t", .RUNNING, 3, none⟩], runStatus := .RUNNING,
      broker := { ready := [], delayed := [], deadLetter := [], locks := [],
                  depsCount := [], reverseGraph := [], jobsCount := 1 } }

/-! ## Janitor (`janitor.py`) -/

/-- The loop body of `zombie_job_checker`: for each job the RUNNING query
returned, check whether its lock key still exists; if not, set its status
to QUEUED in the store and `RPUSH` its id to the ready list. -/
def zombieFold : List JobRec → List JobRec → BrokerState → List JobRec × BrokerState
  | [], jobs, st => (jobs, st)
  | j :: rest, jobs, st =>
    if alGet j.id st.locks = none then
      zombieFold rest (updateJob j.id (fun x => { x with status := .QUEUED }) jobs)
        { st with ready := st.ready ++ [j.id] }
    else zombieFold rest jobs st

/-- `janitor.zombie_job_checker`: query the store for all jobs with status
RUNNING, then run the reclamation loop over them. -/
def zombie_job_checker (jobs : List JobRec) (st : BrokerState) : List JobRec × BrokerState :=
  let running := jobs.filter (fun j => j.status = .RUNNING)
  zombieFold running jobs st

/-- Concrete store for the C10 witness: job 1 RUNNING with no lock (a
zombie), job 2 RUNNING with a live lock, job 3 PENDING. -/
def zombieJobsW : List JobRec :=
  [⟨1, "a", .RUNNING, 0, none⟩, ⟨2, "b", .RUNNING, 0, none⟩, ⟨3, "c", .PENDING, 0, none⟩]

/-- Concrete broker for the C10 witness: only job 2 holds a lock. -/
def zombieStW : BrokerState :=
  { ready := [9], delayed := [], deadLetter := [], locks := [(2, "w")],
    depsCount := [], reverseGraph := [], jobsCount := 3 }

/-! ## Run bootstrap (`main.py`, `trigger_pipeline_run`) -/

/-- One task of a pipeline definition (`schemas.TaskDefinition`): an opaque
function name plus an ordered dependency list. -/
structure TaskDef where
  function : String
  dependencies : List String
  deriving Repr, DecidableEq

/-- Dependencies of a task id, read from the definition (`pipeline_def[t]`,
with `[]` for an absent key). -/
def depsOfTask (d : List (String × TaskDef)) (t : String) : List String :=
  match alGet t d with
  | some td => td.dependencies
  | none => []

/-- A pipeline-run row with its job rows. -/
structure PipelineRunRec where
  id : Nat
  status : PipelineRunStatus
  jobs : List JobRec
  deriving Repr, DecidableEq

/-- The job row materialised for the task at a given position of the
definition: fresh id (index + 1), the task's id, status PENDING. -/
def mkJob (q : Nat × (String × TaskDef)) : JobRec :=
  ⟨q.1 + 1, q.2.1, .PENDING, 0, none⟩

/-- Modelled from the spec: `crud.create_pipeline_run` is imported by
`main.py` but absent from the source (`crud.py` notes that the PipelineRun
model was removed).  Spec §4.2 step 1: persist a run with status PENDING
and one job per task (status PENDING) so that identifiers exist before any
broker key references them.  Jobs are materialised in definition order
with distinct fresh identifiers (index + 1). -/
def create_pipeline_run (runId : Nat) (d : List (String × TaskDef)) : PipelineRunRec :=
  { id := runId, status := .PENDING, jobs := d.enum.map mkJob }

/-- `{job.task_id: job for job in pipeline_run.jobs}` from `main.py`. -/
def jobMapOf (run : PipelineRunRec) : List (String × JobRec) :=
  run.jobs.map (fun j => (j.task_id, j))

/-- One write issued by `trigger_pipeline_run`, in issue order: the broker
pipeline (`SET jobs_count`, `HSET deps_count`, `HSET reverse_graph`), the
root enqueues (`RPUSH` + store status), and the final run-status write. -/
inductive Effect
  | setJobsCount (v : Nat)
  | hsetDeps (jobId : Nat) (v : Nat)
  | hsetRev (jobId : Nat) (children : List Nat)
  | rpushReady (jobId : Nat)
  | setJobStatus (jobId : Nat) (s : JobStatus)
  | setRunStatus (s : PipelineRunStatus)
  deriving Repr, DecidableEq

/-- `job_map[task_id].id` — the job id materialised for a task. -/
def jidOf (job_map : List (String × JobRec)) (t : String) : Nat :=
  ((alGet t job_map).map JobRec.id).getD 0

/-- The reverse graph as `trigger_pipeline_run` builds it: start from
`{task: [] for task in def}` and, for every task in definition order,
append its job id to each of its parents' entries. -/
def buildRev (d : List (String × TaskDef)) (job_map : List (String × JobRec)) :
    List (String × List Nat) :=
  d.foldl
    (fun rev p =>
      p.2.dependencies.foldl
        (fun rev parent => alUpdate parent (fun l => l ++ [jidOf job_map p.1]) rev) rev)
    (d.map (fun p => (p.1, ([] : List Nat))))

/-- The ordered write trace of `main.trigger_pipeline_run` on a freshly
created run: jobs-count, dependency counters, reverse graph, root enqueues
(push then status, per root), and finally the run status. -/
def trigger_pipeline_run (d : List (String × TaskDef)) (run : PipelineRunRec) : List Effect :=
  let job_map : List (String × JobRec) := jobMapOf run
  let depsEffs := d.map (fun p => Effect.hsetDeps (jidOf job_map p.1) p.2.dependencies.length)
  let revEffs := (buildRev d job_map).map (fun p => Effect.hsetRev (jidOf job_map p.1) p.2)
  let root_jobs := run.jobs.filter (fun j => depsOfTask d j.task_id = [])
  let rootEffs := root_jobs.flatMap
    (fun j => [Effect.rpushReady j.id, Effect.setJobStatus j.id .QUEUED])
  [Effect.setJobsCount run.jobs.length] ++ depsEffs ++ revEffs ++ rootEffs ++
    [Effect.setRunStatus .RUNNING]

/-- Job ids of the downstream (child) jobs of task `t`, computed from the
definition: for each task in definition order, one copy of its job id per
occurrence of `t` in its dependency list. -/
def childJobIds (d : List (String × TaskDef)) (t : String) : List Nat :=
  d.enum.flatMap (fun p => List.replicate (countKey t p.2.2.dependencies) (p.1 + 1))

def jobsCountWrites (l : List Effect) : List Nat :=
  l.filterMap (fun e => match e with | .setJobsCount v => some v | _ => none)

def depsWrites (l : List Effect) : List (Nat × Nat) :=
  l.filterMap (fun e => match e with | .hsetDeps j v => some (j, v) | _ => none)

def revWrites (l : List Effect) : List (Nat × List Nat) :=
  l.filterMap (fun e => match e with | .hsetRev j c => some (j, c) | _ => none)

def readyPushes (l : List Effect) : List Nat :=
  l.filterMap (fun e => match e with | .rpushReady j => some j | _ => none)

def statusWrites (l : List Effect) : List (Nat × JobStatus) :=
  l.filterMap (fun e => match e with | .setJobStatus j s => some (j, s) | _ => none)

def runStatusWrites (l : List Effect) : List PipelineRunStatus :=
  l.filterMap (fun e => match e with | .setRunStatus s => some s | _ => none)

/-- The spec's diamond pipeline `{a: [], b: [a], c: [a], d: [b, c]}`. -/
def diamondDef : List (String × TaskDef) :=
  [("a", ⟨"f", []⟩), ("b", ⟨"f", ["a"]⟩), ("c", ⟨"f", ["a"]⟩), ("d", ⟨"f", ["b", "c"]⟩)]

/-! ## DAG validation (`validation.py`, `validate_pipeline_dag`) -/

/-- The two `ValueError`s of `validate_pipeline_dag`: a dependency naming a
non-existent task (the message names the offending task and dependency),
or a cycle (raised either by the no-roots early check or by the final
popped-count check). -/
inductive ValidationError
  | unknownDependency (task : String) (dep : String)
  | cycle
  deriving Repr, DecidableEq

/-- Inner loop of the first pass: for each dependency of task `t`, raise
`UnknownDependency` if it is not a key of `graph`; otherwise append `t` to
`graph[dependency]` and increment `in_degree[t]`. -/
def buildDeps (t : String) : List String → List (String × List String) → List (String × Int) →
    Except ValidationError (List (String × List String) × List (String × Int))
  | [], g, ind => .ok (g, ind)
  | p :: rest, g, ind =>
    if (alGet p g).isSome then
      buildDeps t rest (alUpdate p (fun l => l ++ [t]) g) (alUpdate t (fun v => v + 1) ind)
    else .error (.unknownDependency t p)

/-- First pass over the definition, building `graph` and `in_degree`. -/
def buildGraphLoop : List (String × TaskDef) → List (String × List String) →
    List (String × Int) →
    Except ValidationError (List (String × List String) × List (String × Int))
  | [], g, ind => .ok (g, ind)
  | p :: rest, g, ind =>
    match buildDeps p.1 p.2.dependencies g ind with
    | .error e => .error e
    | .ok r => buildGraphLoop rest r.1 r.2

/-- Body of Kahn's pop loop: for each dependent of the popped task,
decrement its in-degree and enqueue it when the new value is 0. -/
def processChildren : List String → List (String × Int) → List String →
    List (String × Int) × List String
  | [], ind, q => (ind, q)
  | c :: cs, ind, q =>
    let ind' := alUpdate c (fun v => v - 1) ind
    let q' := if alGet c ind' = some 0 then q ++ [c] else q
    processChildren cs ind' q'

/-- Total positive in-degree mass, used as the loop's fuel/measure. -/
def sumToNat (l : List (String × Int)) : Nat := (l.map (fun p => p.2.toNat)).sum

/-- Kahn's `while queue:` loop, counting popped tasks.  The fuel is the
loop measure (total in-degree plus queue length); with that much fuel it
can never be exhausted. -/
def kahnLoop (g : List (String × List String)) :
    Nat → List (String × Int) → List String → Nat → Nat
  | _, _, [], cnt => cnt
  | 0, _, _ :: _, cnt => cnt
  | fuel + 1, ind, cur :: rest, cnt =>
    let r := processChildren ((alGet cur g).getD []) ind rest
    kahnLoop g fuel r.1 r.2 (cnt + 1)

/-- Ghost variant of `kahnLoop` returning the popped tasks in pop order. -/
def kahnLoopL (g : List (String × List String)) :
    Nat → List (String × Int) → List String → List String
  | _, _, [] => []
  | 0, _, _ :: _ => []
  | fuel + 1, ind, cur :: rest =>
    let r := processChildren ((alGet cur g).getD []) ind rest
    cur :: kahnLoopL g fuel r.1 r.2

/-- `validation.validate_pipeline_dag`: build graph and in-degrees (raising
`UnknownDependency` on a dangling dependency), seed the queue with
in-degree-0 tasks, raise `Cycle` if a non-empty definition has no roots,
run Kahn's loop, and raise `Cycle` unless every task was popped. -/
def validate_pipeline_dag (d : List (String × TaskDef)) : Except ValidationError Unit :=
  let g0 : List (String × List String) := d.map (fun p => (p.1, []))
  let ind0 : List (String × Int) := d.map (fun p => (p.1, 0))
  match buildGraphLoop d g0 ind0 with
  | .error e => .error e
  | .ok r =>
    let queue := r.2.filterMap (fun p => if p.2 = 0 then some p.1 else none)
    if queue = [] ∧ ¬ d = [] then .error .cycle
    else
      let cnt := kahnLoop r.1 (sumToNat r.2 + queue.length) r.2 queue 0
      if ¬ cnt = d.length then .error .cycle else .ok ()

/-- Task keys of a definition. -/
def keysOf (d : List (String × TaskDef)) : List String := d.map Prod.fst

/-- Every dependency of every task names an existing task. -/
def closedDefn (d : List (String × TaskDef)) : Prop :=
  ∀ p ∈ d, ∀ q ∈ p.2.dependencies, q ∈ keysOf d

/-- `p` is a declared dependency (parent) of `c`. -/
def parentOf (d : List (String × TaskDef)) (p c : String) : Prop :=
  p ∈ depsOfTask d c

/-- The definition contains a cycle: a non-empty dependency path from some
task back to itself. -/
def hasCycle (d : List (String × TaskDef)) : Prop :=
  ∃ t, Relation.TransGen (parentOf d) t t

/-- Children (dependents) of `p` as the first pass accumulates them: each
task, in definition order, once per occurrence of `p` in its dependencies. -/
def childrenOf (l : List (String × TaskDef)) (p : String) : List String :=
  l.flatMap (fun e => List.replicate (countKey p e.2.dependencies) e.1)

/-- In-degree contribution of the first pass to key `q`. -/
def indContrib (l : List (String × TaskDef)) (q : String) : Nat :=
  (l.map (fun p => if p.1 = q then p.2.dependencies.length else 0)).sum

/-- The first pass's `graph[dependency].append(task_id)` fold for one task. -/
def graphAppendAll (t : String) (deps : List String) (g : List (String × List String)) :
    List (String × List String) :=
  deps.foldl (fun g p => alUpdate p (fun l => l ++ [t]) g) g

/-- The first pass's `in_degree[task_id] += 1` fold for one task. -/
def indAddAll (t : String) (deps : List String) (ind : List (String × Int)) :
    List (String × Int) :=
  deps.foldl (fun ind _ => alUpdate t (fun v => v + 1) ind) ind

/-- Occurrences in `l` of elements not in `popped`. -/
def countNotIn (popped : List String) : List String → Nat
  | [] => 0
  | p :: rest => (if p ∈ popped then 0 else 1) + countNotIn popped rest

/-- Reverse-chronological pop list respects dependencies: each entry's
dependencies were popped strictly earlier (appear strictly later in the
reversed list). -/
def RevTopo (d : List (String × TaskDef)) : List String → Prop
  | [] => True
  | t :: rest => (∀ p ∈ depsOfTask d t, p ∈ rest) ∧ RevTopo d rest

/-- The loop invariant of Kahn's algorithm, over the reverse pop list, the
queue, and the in-degree map. -/
structure KahnInv (d : List (String × TaskDef)) (poppedR queue : List String)
    (ind : List (String × Int)) : Prop where
  poppedNodup : poppedR.Nodup
  poppedKeys : ∀ t ∈ poppedR, t ∈ keysOf d
  queueNodup : queue.Nodup
  queueKeys : ∀ t ∈ queue, t ∈ keysOf d
  queueFresh : ∀ t ∈ queue, t ∉ poppedR
  indKeys : ind.map Prod.fst = keysOf d
  indSpec : ∀ t ∈ keysOf d,
    alGet t ind = some ((countNotIn poppedR (depsOfTask d t) : Nat) : Int)
  queueIff : ∀ t ∈ keysOf d,
    (t ∈ queue ↔ t ∉ poppedR ∧ ∀ p ∈ depsOfTask d t, p ∈ poppedR)
  revTopo : RevTopo d poppedR

/-- API-level errors of `main.handle_pipeline_create`: duplicate pipeline
name, or a validation failure (HTTP 400 with the validator's message). -/
inductive ApiError
  | duplicateName
  | badRequest (e : ValidationError)
  deriving Repr, DecidableEq

/-- The store as `handle_pipeline_create` sees it: pipelines by name. -/
structure AppDB where
  pipelines : List (String × List (String × TaskDef))
  deriving Repr, DecidableEq

/-- `main.handle_pipeline_create`: reject a duplicate name, validate the
DAG (propagating its error as a 400), else persist the pipeline. -/
def handle_pipeline_create (db : AppDB) (name : String) (d : List (String × TaskDef)) :
    Except ApiError AppDB :=
  if (alGet name db.pipelines).isSome then .error .duplicateName
  else
    match validate_pipeline_dag d with
    | .error e => .error (.badRequest e)
    | .ok _ => .ok ⟨db.pipelines ++ [(name, d)]⟩

/-- Whether processing the dependents `cs` drives `t`'s counter from its
current value to exactly 0 at one of the decrements (the pop loop's enqueue
test), as a 0/1 count. -/
def hitInd (t : String) (cs : List String) (ind : List (String × Int)) : Nat :=
  match alGet t ind with
  | some v => if 1 ≤ v ∧ v ≤ (countKey t cs : Int) then 1 else 0
  | none => 0

/-- Position of the first occurrence of `t` (list length if absent). -/
def rankOf (t : String) : List String → Nat
  | [] => 0
  | a :: l => if a = t then 0 else rankOf t l + 1

/-- A two-task chain `b` depending on `a`, a concrete valid pipeline. -/
def chainDef : List (String × TaskDef) :=
  [("a", ⟨"f", []⟩), ("b", ⟨"f", ["a"]⟩)]

/-! ## Theorems -/

theorem alGet_alSet_self {κ β : Type} [DecidableEq κ] (k : κ) (v : β) (l : List (κ × β)) :
    alGet k (alSet k v l) = some v := by
  induction l with
  | nil => simp [alGet, alSet]
  | cons p rest ih =>
    by_cases h : p.1 = k
    · simp [alSet, alGet, h]
    · simp [alSet, alGet, h, ih]

theorem alGet_alSet_ne {κ β : Type} [DecidableEq κ] (k k' : κ) (v : β) (l : List (κ × β))
    (h : k ≠ k') : alGet k' (alSet k v l) = alGet k' l := by
  induction l with
  | nil => simp [alGet, alSet, h]
  | cons p rest ih =>
    by_cases hp : p.1 = k
    · simp [alSet, alGet, hp, h]
    · simp [alSet, alGet, hp, ih]

theorem alGet_append_right_of_none {κ β : Type} [DecidableEq κ] (k : κ) (l l' : List (κ × β))
    (h : alGet k l = none) : alGet k (l ++ l') = alGet k l' := by
  induction l with
  | nil => rfl
  | cons p rest ih =>
    by_cases hp : p.1 = k
    · simp [alGet, hp] at h
    · simp [alGet, hp] at h ⊢
      exact ih h

theorem alGet_alIncr_self {κ : Type} [DecidableEq κ] (k : κ) (δ : Int) (l : List (κ × Int)) :
    alGet k (alIncr k δ l) = some ((alGet k l).getD 0 + δ) := by
  unfold alIncr
  cases hv : alGet k l with
  | some v => simp [alGet_alSet_self]
  | none =>
    rw [alGet_append_right_of_none k l _ hv]
    simp [alGet]

theorem alGet_alIncr_ne {κ : Type} [DecidableEq κ] (k k' : κ) (δ : Int) (l : List (κ × Int))
    (h : k ≠ k') : alGet k' (alIncr k δ l) = alGet k' l := by
  unfold alIncr
  cases hv : alGet k l with
  | some v => exact alGet_alSet_ne k k' _ l h
  | none =>
    induction l with
    | nil => simp [alGet, h]
    | cons p rest ih =>
      by_cases hp : p.1 = k
      · simp [alGet, hp] at hv
      · simp [alGet, hp] at hv ⊢
        by_cases hp' : p.1 = k'
        · simp [hp']
        · simp [hp', ih hv]

theorem alGet_alUpdate_self {κ β : Type} [DecidableEq κ] (k : κ) (f : β → β) (l : List (κ × β)) :
    alGet k (alUpdate k f l) = (alGet k l).map f := by
  induction l with
  | nil => simp [alGet, alUpdate]
  | cons p rest ih =>
    by_cases h : p.1 = k
    · simp [alUpdate, alGet, h]
    · simp [alUpdate, alGet, h, ih]

theorem alGet_alUpdate_ne {κ β : Type} [DecidableEq κ] (k k' : κ) (f : β → β) (l : List (κ × β))
    (h : k ≠ k') : alGet k' (alUpdate k f l) = alGet k' l := by
  induction l with
  | nil => simp [alUpdate]
  | cons p rest ih =>
    by_cases hp : p.1 = k
    · have hne : p.1 ≠ k' := by rw [hp]; exact h
      simp [alUpdate, alGet, hp, hne, h]
    · by_cases hp' : p.1 = k'
      · simp [alUpdate, alGet, hp, hp', Ne.symm h]
      · simp [alUpdate, alGet, hp, hp', ih]

theorem alUpdate_keys {κ β : Type} [DecidableEq κ] (k : κ) (f : β → β) (l : List (κ × β)) :
    (alUpdate k f l).map Prod.fst = l.map Prod.fst := by
  induction l with
  | nil => rfl
  | cons p rest ih =>
    by_cases h : p.1 = k
    · simp [alUpdate, h]
    · simp [alUpdate, h, ih]

theorem countKey_eq_zero {κ : Type} [DecidableEq κ] {a : κ} {l : List κ} (h : a ∉ l) :
    countKey a l = 0 := by
  induction l with
  | nil => rfl
  | cons b rest ih =>
    simp only [List.mem_cons, not_or] at h
    have hb : b ≠ a := fun hba => h.1 hba.symm
    simp [countKey, hb, ih h.2]

theorem countKey_pos_iff_mem {κ : Type} [DecidableEq κ] (a : κ) (l : List κ) :
    1 ≤ countKey a l ↔ a ∈ l := by
  induction l with
  | nil => simp [countKey]
  | cons b rest ih =>
    by_cases h : b = a
    · subst h; simp [countKey]
    · have : a ≠ b := fun hab => h hab.symm
      simp [countKey, h, ih, this]

theorem countKey_append {κ : Type} [DecidableEq κ] (a : κ) (l l' : List κ) :
    countKey a (l ++ l') = countKey a l + countKey a l' := by
  induction l with
  | nil => simp [countKey]
  | cons b rest ih => simp [countKey, ih]; omega

theorem depVal_alIncr_self (j : Nat) (δ : Int) (l : List (Nat × Int)) :
    depVal (alIncr j δ l) j = depVal l j + δ := by
  unfold depVal
  rw [alGet_alIncr_self]
  rfl

theorem depVal_alIncr_ne (j j' : Nat) (δ : Int) (l : List (Nat × Int)) (h : j ≠ j') :
    depVal (alIncr j δ l) j' = depVal l j' := by
  unfold depVal
  rw [alGet_alIncr_ne j j' δ l h]

theorem completeLoop_fst_get (j : Nat) :
    ∀ (argv : List Nat) (deps : List (Nat × Int)) (acc : List Nat),
      alGet j (completeLoop deps acc argv).1 =
        if j ∈ argv then some (depVal deps j - countKey j argv) else alGet j deps := by
  intro argv
  induction argv with
  | nil => intro deps acc; simp [completeLoop]
  | cons a rest ih =>
    intro deps acc
    simp only [completeLoop]
    rw [ih]
    by_cases hja : j = a
    · subst hja
      by_cases hjr : j ∈ rest
      · simp [hjr, depVal_alIncr_self, countKey]
        ring
      · simp [hjr, alGet_alIncr_self, countKey, depVal]
        rw [countKey_eq_zero hjr]
        simp
        omega
    · have hne : a ≠ j := fun h => hja h.symm
      by_cases hjr : j ∈ rest
      · simp [hjr, hja, depVal_alIncr_ne a j _ _ hne, countKey, hne]
      · have : j ∉ a :: rest := by simp [hja, hjr]
        simp [hjr, this, alGet_alIncr_ne a j _ _ hne]

theorem completeLoop_snd_count (j : Nat) :
    ∀ (argv : List Nat) (deps : List (Nat × Int)) (acc : List Nat),
      countKey j (completeLoop deps acc argv).2 =
        countKey j acc +
          (if 1 ≤ depVal deps j ∧ depVal deps j ≤ (countKey j argv : Int) then 1 else 0) := by
  intro argv
  induction argv with
  | nil =>
    intro deps acc
    have : ¬ (1 ≤ depVal deps j ∧ depVal deps j ≤ ((countKey j ([] : List Nat) : Nat) : Int)) := by
      simp [countKey]; omega
    simp [completeLoop, this]
  | cons a rest ih =>
    intro deps acc
    simp only [completeLoop]
    rw [ih]
    by_cases hja : j = a
    · subst hja
      have hget : alGet j (alIncr j (-1) deps) = some (depVal deps j - 1) := by
        rw [alGet_alIncr_self]
        unfold depVal
        congr 1
      have hck : countKey j (j :: rest) = countKey j rest + 1 := by
        simp [countKey]
        omega
      have hdv : depVal (alIncr j (-1) deps) j = depVal deps j - 1 := by
        rw [depVal_alIncr_self]; omega
      rw [hdv, hck]
      by_cases h1 : depVal deps j = 1
      · have hcond : alGet j (alIncr j (-1) deps) = some 0 := by
          rw [hget, h1]; norm_num
        rw [if_pos hcond, countKey_append]
        have h2 : countKey j [j] = 1 := by simp [countKey]
        rw [h2]
        split_ifs with hA hB hB <;> push_cast <;> omega
      · have hcond : ¬ alGet j (alIncr j (-1) deps) = some 0 := by
          rw [hget]
          intro hx
          have := Option.some.inj hx
          omega
        rw [if_neg hcond]
        split_ifs with hA hB hB <;> push_cast <;> omega
    · have hne : a ≠ j := fun h => hja h.symm
      rw [depVal_alIncr_ne a j _ _ hne]
      have hacc : countKey j (if alGet a (alIncr a (-1) deps) = some 0
          then acc ++ [a] else acc) = countKey j acc := by
        split_ifs
        · rw [countKey_append]; simp [countKey, hne]
        · rfl
      rw [hacc]
      have hck : countKey j (a :: rest) = countKey j rest := by simp [countKey, hne]
      rw [hck]

theorem completeLoop_sublist :
    ∀ (argv : List Nat) (deps : List (Nat × Int)) (acc : List Nat),
      (completeLoop deps acc argv).2.Sublist (acc ++ argv) := by
  intro argv
  induction argv with
  | nil => intro deps acc; simp [completeLoop]
  | cons a rest ih =>
    intro deps acc
    simp only [completeLoop]
    split_ifs with h
    · have hsub := ih (alIncr a (-1) deps) (acc ++ [a])
      have heq : (acc ++ [a]) ++ rest = acc ++ a :: rest := by simp
      rwa [heq] at hsub
    · have := ih (alIncr a (-1) deps) acc
      refine this.trans ?_
      exact (rest.sublist_cons_self a).append_left acc

theorem completeScript_ready (st : BrokerState) (argv : List Nat) :
    (completeScript st argv).1.ready = st.ready ++ (completeScript st argv).2 := by
  unfold completeScript
  by_cases h : (completeLoop st.depsCount [] argv).2 = []
  · simp [h]
  · simp [h]

theorem completeScript_depVal (st : BrokerState) (argv : List Nat) (j : Nat) :
    depVal (completeScript st argv).1.depsCount j = depVal st.depsCount j - countKey j argv := by
  unfold completeScript depVal
  simp only
  rw [completeLoop_fst_get]
  by_cases h : j ∈ argv
  · simp [h, depVal]
  · rw [if_neg h, countKey_eq_zero h]
    simp

theorem completeMany_depVal (j : Nat) :
    ∀ (invs : List (List Nat)) (st : BrokerState),
      depVal (completeMany st invs).1.depsCount j =
        depVal st.depsCount j - ((invs.map (countKey j)).sum : Int) := by
  intro invs
  induction invs with
  | nil => intro st; simp [completeMany]
  | cons argv rest ih =>
    intro st
    simp only [completeMany]
    rw [ih, completeScript_depVal]
    simp
    ring

theorem completeMany_count (j : Nat) :
    ∀ (invs : List (List Nat)) (st : BrokerState),
      countKey j (completeMany st invs).2 =
        if 1 ≤ depVal st.depsCount j ∧
            depVal st.depsCount j ≤ ((invs.map (countKey j)).sum : Int)
          then 1 else 0 := by
  intro invs
  induction invs with
  | nil =>
    intro st
    have hno : ¬ (1 ≤ depVal st.depsCount j ∧ depVal st.depsCount j ≤ (0 : Int)) := by
      omega
    simp [completeMany, countKey, hno]
  | cons argv rest ih =>
    intro st
    simp only [completeMany]
    rw [countKey_append]
    have hhead : countKey j (completeScript st argv).2 =
        if 1 ≤ depVal st.depsCount j ∧
            depVal st.depsCount j ≤ (countKey j argv : Int) then 1 else 0 := by
      unfold completeScript
      simp only
      rw [completeLoop_snd_count]
      simp [countKey]
    rw [hhead, ih, completeScript_depVal]
    have hsum : ((((argv :: rest).map (countKey j)).sum : Nat) : Int) =
        (countKey j argv : Int) + ((rest.map (countKey j)).sum : Int) := by
      push_cast [List.map_cons, List.sum_cons]
      ring
    rw [hsum]
    split_ifs with hA hB hB <;> omega

theorem alGet_mem {κ β : Type} [DecidableEq κ] {k : κ} {v : β} :
    ∀ {l : List (κ × β)}, alGet k l = some v → (k, v) ∈ l := by
  intro l
  induction l with
  | nil => intro h; simp [alGet] at h
  | cons p rest ih =>
    intro h
    by_cases hp : p.1 = k
    · simp only [alGet, if_pos hp] at h
      have hv := Option.some.inj h
      have hpeq : (k, v) = p := by
        rw [← hp, ← hv]
      rw [hpeq]
      exact List.mem_cons_self p rest
    · simp only [alGet, if_neg hp] at h
      right
      exact ih h

/-- C1: the completion script decrements each downstream identifier's
dependency counter by 1 per occurrence, collects (in order, as a sublist of
the arguments) exactly the identifiers whose post-decrement value is 0,
right-pushes the collected list to the tail of the ready list, returns it,
touches no other broker state, and — across any sequence of invocations
from the same starting state — pushes each child identifier at most once
(only on the transition of its counter to zero). -/
theorem completion_script_spec (st : BrokerState) (argv : List Nat) :
    (∀ j : Nat, alGet j (completeScript st argv).1.depsCount =
        if j ∈ argv then some (depVal st.depsCount j - countKey j argv)
        else alGet j st.depsCount) ∧
    (completeScript st argv).2.Sublist argv ∧
    (∀ j : Nat, j ∈ (completeScript st argv).2 ↔
        1 ≤ depVal st.depsCount j ∧ depVal st.depsCount j ≤ (countKey j argv : Int)) ∧
    (completeScript st argv).1.ready = st.ready ++ (completeScript st argv).2 ∧
    (completeScript st argv).1.delayed = st.delayed ∧
    (completeScript st argv).1.deadLetter = st.deadLetter ∧
    (completeScript st argv).1.locks = st.locks ∧
    (completeScript st argv).1.reverseGraph = st.reverseGraph ∧
    (completeScript st argv).1.jobsCount = st.jobsCount ∧
    (∀ invs : List (List Nat), ∀ j : Nat, countKey j (completeMany st invs).2 ≤ 1) := by
  have hfst : (completeScript st argv).1.depsCount = (completeLoop st.depsCount [] argv).1 := by
    unfold completeScript
    by_cases h : (completeLoop st.depsCount [] argv).2 = [] <;> simp [h]
  have hsnd : (completeScript st argv).2 = (completeLoop st.depsCount [] argv).2 := rfl
  refine ⟨?_, ?_, ?_, completeScript_ready st argv, ?_, ?_, ?_, ?_, ?_, ?_⟩
  · intro j
    rw [hfst, completeLoop_fst_get]
  · rw [hsnd]
    have := completeLoop_sublist argv st.depsCount []
    simpa using this
  · intro j
    have hcnt : countKey j (completeScript st argv).2 =
        if 1 ≤ depVal st.depsCount j ∧
            depVal st.depsCount j ≤ (countKey j argv : Int) then 1 else 0 := by
      rw [hsnd, completeLoop_snd_count]
      simp [countKey]
    rw [← countKey_pos_iff_mem, hcnt]
    split_ifs with h
    · simp [h]
    · simp [h]
  · unfold completeScript
    by_cases h : (completeLoop st.depsCount [] argv).2 = [] <;> simp [h]
  · unfold completeScript
    by_cases h : (completeLoop st.depsCount [] argv).2 = [] <;> simp [h]
  · unfold completeScript
    by_cases h : (completeLoop st.depsCount [] argv).2 = [] <;> simp [h]
  · unfold completeScript
    by_cases h : (completeLoop st.depsCount [] argv).2 = [] <;> simp [h]
  · unfold completeScript
    by_cases h : (completeLoop st.depsCount [] argv).2 = [] <;> simp [h]
  · intro invs j
    rw [completeMany_count]
    split_ifs <;> omega

/-- C7 counterexample: a duplicate completion of the same parent (two
invocations of the completion script naming child 7) drives the child's
dependency counter to −1, below zero, refuting the claim that no sequence
of invocations drives a counter negative. -/
theorem dep_counter_goes_negative :
    alGet 7 (completeMany dupCompletionState [[7], [7]]).1.depsCount = some (-1) ∧
      (-1 : Int) < 0 := by
  constructor
  · rfl
  · decide

/-- C7 (amended): counters stay non-negative as long as no job identifier is
decremented more often than its bootstrapped counter value — i.e. in the
absence of duplicate completions.  `HINCRBY` applies no floor, so the
original claim fails only for duplicate decrements (see the
counterexample); the at-most-once push guarantee holds regardless. -/
theorem deps_count_nonneg_without_duplicate_completion (st : BrokerState)
    (invs : List (List Nat))
    (h0 : ∀ p ∈ st.depsCount, 0 ≤ p.2)
    (hb : ∀ j ∈ invs.flatten, ((invs.map (countKey j)).sum : Int) ≤ depVal st.depsCount j) :
    ∀ pre suf, invs = pre ++ suf →
      ∀ j, 0 ≤ depVal (completeMany st pre).1.depsCount j := by
  intro pre suf heq j
  rw [completeMany_depVal]
  have h0j : 0 ≤ depVal st.depsCount j := by
    unfold depVal
    cases halGet : alGet j st.depsCount with
    | none => simp
    | some v =>
      have := h0 _ (alGet_mem halGet)
      simpa using this
  have hmono : ((pre.map (countKey j)).sum : Int) ≤ ((invs.map (countKey j)).sum : Int) := by
    subst heq
    rw [List.map_append, List.sum_append]
    have := Nat.le_add_right ((pre.map (countKey j)).sum) ((suf.map (countKey j)).sum)
    exact_mod_cast this
  by_cases hmem : j ∈ invs.flatten
  · have := hb j hmem
    omega
  · have hzero : (invs.map (countKey j)).sum = 0 := by
      apply List.sum_eq_zero
      intro x hx
      rcases List.mem_map.mp hx with ⟨argv, hargv, hxeq⟩
      have hnj : j ∉ argv := by
        intro hj
        exact hmem (List.mem_flatten.mpr ⟨argv, hargv, hj⟩)
      rw [← hxeq]
      exact countKey_eq_zero hnj
    rw [hzero] at hmono
    omega

/-- Witness for the amended C7 theorem at a concrete two-job run: counters
2 and 1, completions `[1]` then `[1, 2]`, checked after the first call. -/
theorem deps_count_nonneg_without_duplicate_completion_witness :
    (∀ p ∈ ([(1, 2), (2, 1)] : List (Nat × Int)), 0 ≤ p.2) ∧
    (∀ j ∈ ([[1], [1, 2]] : List (List Nat)).flatten,
      ((([[1], [1, 2]] : List (List Nat)).map (countKey j)).sum : Int) ≤
        depVal [(1, 2), (2, 1)] j) ∧
    0 ≤ depVal (completeMany
      { ready := [], delayed := [], deadLetter := [], locks := [],
        depsCount := [(1, 2), (2, 1)], reverseGraph := [], jobsCount := 2 }
      [[1]]).1.depsCount 1 := by
  refine ⟨by decide, by decide, ?_⟩
  exact deps_count_nonneg_without_duplicate_completion
    { ready := [], delayed := [], deadLetter := [], locks := [],
      depsCount := [(1, 2), (2, 1)], reverseGraph := [], jobsCount := 2 }
    [[1], [1, 2]] (by decide) (by decide) [[1]] [[1, 2]] rfl 1

theorem alGet_alRemove_self {κ β : Type} [DecidableEq κ] (k : κ) (l : List (κ × β)) :
    alGet k (alRemove k l) = none := by
  induction l with
  | nil => rfl
  | cons p rest ih =>
    by_cases hp : p.1 = k
    · simp [alRemove, List.filter, hp] at ih ⊢
      exact ih
    · simp [alRemove, List.filter, hp, alGet] at ih ⊢
      exact ih

theorem workerIterFailure_final (now : Int) (err : String) (job : JobRec)
    (run : PipelineRunStatus) (st : BrokerState)
    (h : job.retry_count + 1 > MAX_RETRY) :
    workerIterFailure now err job run st =
      ({ job with status := .FAILED, retry_count := job.retry_count + 1, logs := some err },
       .FAILED,
       { st with deadLetter := job.id :: st.deadLetter,
                 locks := alRemove job.id st.locks }) := by
  simp [workerIterFailure, handleTaskFailure, runFinally, h]

theorem workerIterFailure_retry (now : Int) (err : String) (job : JobRec)
    (run : PipelineRunStatus) (st : BrokerState)
    (h : ¬ job.retry_count + 1 > MAX_RETRY) :
    workerIterFailure now err job run st =
      ({ job with status := .RUNNING, retry_count := job.retry_count + 1 },
       run,
       { st with
          delayed := alSet job.id
            (now + RETRY_DELAY_BASE_SECONDS * 2 ^ (job.retry_count + 1 - 1)) st.delayed,
          locks := alRemove job.id st.locks }) := by
  simp [workerIterFailure, handleTaskFailure, runFinally, h]

theorem failAlways_run_aux (now : Int) (err : String) :
    ∀ (fuel : Nat) (job : JobRec) (run : PipelineRunStatus) (st : BrokerState) (attempts : Nat),
      job.retry_count ≤ MAX_RETRY → MAX_RETRY + 1 ≤ job.retry_count + fuel →
      (failAlways now err fuel job run st attempts).1 =
          attempts + (MAX_RETRY + 1 - job.retry_count) ∧
      (failAlways now err fuel job run st attempts).2.1.id = job.id ∧
      (failAlways now err fuel job run st attempts).2.1.status = .FAILED ∧
      (failAlways now err fuel job run st attempts).2.1.retry_count = MAX_RETRY + 1 ∧
      (failAlways now err fuel job run st attempts).2.1.logs = some err ∧
      (failAlways now err fuel job run st attempts).2.2.1 = .FAILED ∧
      (failAlways now err fuel job run st attempts).2.2.2.deadLetter = job.id :: st.deadLetter := by
  intro fuel
  induction fuel with
  | zero =>
    intro job run st attempts h1 h2
    unfold MAX_RETRY at h1 h2
    omega
  | succ fuel ih =>
    intro job run st attempts h1 h2
    by_cases hc : job.retry_count + 1 > MAX_RETRY
    · have hrc : job.retry_count = MAX_RETRY := by
        unfold MAX_RETRY at hc h1 ⊢
        omega
      simp only [failAlways]
      rw [workerIterFailure_final now err job run st hc]
      simp [hrc, MAX_RETRY]
    · simp only [failAlways]
      rw [workerIterFailure_retry now err job run st hc]
      have hstatus : ¬ ({ job with
          status := JobStatus.RUNNING,
          retry_count := job.retry_count + 1 } : JobRec).status = JobStatus.FAILED := by
        simp
      rw [if_neg hstatus]
      have hres := ih { job with
          status := JobStatus.RUNNING,
          retry_count := job.retry_count + 1 } run
        { st with
            delayed := alSet job.id
              (now + RETRY_DELAY_BASE_SECONDS * 2 ^ (job.retry_count + 1 - 1)) st.delayed,
            locks := alRemove job.id st.locks }
        (attempts + 1) (by simp; omega) (by simp; omega)
      obtain ⟨e1, e2, e3, e4, e5, e6, e7⟩ := hres
      refine ⟨?_, e2, e3, e4, e5, e6, e7⟩
      rw [e1]
      simp only [MAX_RETRY] at hc ⊢
      omega

/-- C3: when a task body raises and the incremented attempt count exceeds
MAX_RETRY, the worker sets the job FAILED, stores the error text on the
job record, marks the run FAILED and adds exactly one dead-letter entry
for the job; a task body that always fails yields exactly MAX_RETRY + 1
attempts, then that single dead-letter entry and a FAILED run. -/
theorem retry_bound_spec (now : Int) (err : String) (job : JobRec)
    (run : PipelineRunStatus) (st : BrokerState) (fuel : Nat)
    (hrc : job.retry_count = 0) (hfuel : MAX_RETRY + 1 ≤ fuel) :
    (failAlways now err fuel job run st 0).1 = MAX_RETRY + 1 ∧
    (failAlways now err fuel job run st 0).2.1.status = .FAILED ∧
    (failAlways now err fuel job run st 0).2.1.logs = some err ∧
    (failAlways now err fuel job run st 0).2.2.1 = .FAILED ∧
    (failAlways now err fuel job run st 0).2.2.2.deadLetter = job.id :: st.deadLetter ∧
    countKey job.id (failAlways now err fuel job run st 0).2.2.2.deadLetter =
      countKey job.id st.deadLetter + 1 := by
  have h := failAlways_run_aux now err fuel job run st 0
    (by rw [hrc]; exact Nat.zero_le _) (by rw [hrc]; omega)
  obtain ⟨e1, e2, e3, e4, e5, e6, e7⟩ := h
  refine ⟨by rw [e1, hrc]; omega, e3, e5, e6, e7, ?_⟩
  rw [e7]
  simp [countKey]
  omega

/-- Witness for C3 at a concrete fresh job with fuel MAX_RETRY + 1. -/
theorem retry_bound_spec_witness :
    (⟨1, "t", JobStatus.RUNNING, 0, none⟩ : JobRec).retry_count = 0 ∧
    MAX_RETRY + 1 ≤ 4 ∧
    ((failAlways 0 "e" 4 ⟨1, "t", .RUNNING, 0, none⟩ .RUNNING emptyBroker 0).1 = MAX_RETRY + 1 ∧
     (failAlways 0 "e" 4 ⟨1, "t", .RUNNING, 0, none⟩ .RUNNING emptyBroker 0).2.1.status = .FAILED ∧
     (failAlways 0 "e" 4 ⟨1, "t", .RUNNING, 0, none⟩ .RUNNING emptyBroker 0).2.1.logs = some "e" ∧
     (failAlways 0 "e" 4 ⟨1, "t", .RUNNING, 0, none⟩ .RUNNING emptyBroker 0).2.2.1 = .FAILED ∧
     (failAlways 0 "e" 4 ⟨1, "t", .RUNNING, 0, none⟩ .RUNNING emptyBroker 0).2.2.2.deadLetter =
       (⟨1, "t", JobStatus.RUNNING, 0, none⟩ : JobRec).id :: emptyBroker.deadLetter ∧
     countKey (⟨1, "t", JobStatus.RUNNING, 0, none⟩ : JobRec).id
         (failAlways 0 "e" 4 ⟨1, "t", .RUNNING, 0, none⟩ .RUNNING emptyBroker 0).2.2.2.deadLetter =
       countKey (⟨1, "t", JobStatus.RUNNING, 0, none⟩ : JobRec).id emptyBroker.deadLetter + 1) :=
  ⟨rfl, by decide,
    retry_bound_spec 0 "e" ⟨1, "t", .RUNNING, 0, none⟩ .RUNNING emptyBroker 4 rfl (by decide)⟩

/-- C4: evidence for the code bug — after a failed attempt with incremented
attempt count 2 ≤ MAX_RETRY, the worker schedules the retry at
now + RETRY_DELAY_BASE_SECONDS · 2^(2−1) (1000 + 20 = 1020) as the claim
states, but it never sets the job status to RETRYING: the status stays
RUNNING, the value written before the task body ran. -/
theorem retry_keeps_status_running :
    (handleTaskFailure 1000 "boom" ⟨4, "t", .RUNNING, 1, none⟩ .RUNNING emptyBroker).1.status
        = .RUNNING ∧
    ¬ (handleTaskFailure 1000 "boom" ⟨4, "t", .RUNNING, 1, none⟩ .RUNNING
        emptyBroker).1.status = .RETRYING ∧
    (handleTaskFailure 1000 "boom" ⟨4, "t", .RUNNING, 1, none⟩ .RUNNING
        emptyBroker).1.retry_count = 2 ∧
    alGet 4 (handleTaskFailure 1000 "boom" ⟨4, "t", .RUNNING, 1, none⟩ .RUNNING
        emptyBroker).2.2.delayed = some (1000 + RETRY_DELAY_BASE_SECONDS * 2 ^ (2 - 1)) := by
  decide

/-- C5: evidence for the code bug — when the popped job's lease is held by
another worker, the iteration does not silently discard and return to the
blocking pull: the `continue` routes through the `finally` block, which
evaluates `job.id` with `job = None` and raises AttributeError, crashing
the worker loop (the broker state, including the other worker's lease, is
left as it was only because the crash precedes the `delete`). -/
theorem lease_denied_crashes :
    leaseStep 1 "worker-42"
      { ready := [], delayed := [], deadLetter := [], locks := [(1, "worker-77")],
        depsCount := [], reverseGraph := [], jobsCount := 0 } =
    .crashed .attributeError
      { ready := [], delayed := [], deadLetter := [], locks := [(1, "worker-77")],
        depsCount := [], reverseGraph := [], jobsCount := 0 } := by
  decide

/-- C6 counterexample: an infrastructure error ("store unreachable") raised
while the worker holds job 5 does not leave the lease key in the broker —
the `finally` block deletes it, so the lock map is empty afterwards,
refuting the claim that the lease is left to expire by TTL. -/
theorem infra_error_lease_deleted :
    (workerIterFailure 100 "ConnectionError: store unreachable"
        ⟨5, "t", .RUNNING, 0, none⟩ .RUNNING
        { ready := [], delayed := [], deadLetter := [], locks := [(5, "worker-9")],
          depsCount := [], reverseGraph := [], jobsCount := 1 }).2.2.locks = [] := by
  decide

/-- C6 (amended): on any error raised while a worker holds a job —
infrastructure errors included, since the source's `except` clause does not
distinguish them — the cleanup in the `finally` block unconditionally
deletes the job's lease key; the lease is never left to expire naturally. -/
theorem worker_failure_path_releases_lease (now : Int) (err : String) (job : JobRec)
    (run : PipelineRunStatus) (st : BrokerState) :
    alGet job.id (workerIterFailure now err job run st).2.2.locks = none := by
  have h : (workerIterFailure now err job run st).2.2.locks =
      alRemove job.id
        (handleTaskFailure now err { job with status := .RUNNING } run st).2.2.locks := rfl
  rw [h, alGet_alRemove_self]

theorem completeScript_jobsCount (st : BrokerState) (argv : List Nat) :
    (completeScript st argv).1.jobsCount = st.jobsCount := by
  unfold completeScript
  by_cases h : (completeLoop st.depsCount [] argv).2 = [] <;> simp [h]

theorem handleTaskSuccess_jobsCount (job : JobRec) (run : PipelineRunStatus)
    (st : BrokerState) :
    (handleTaskSuccess job run st).2.2.jobsCount = st.jobsCount - 1 := by
  unfold handleTaskSuccess
  simp [completeScript_jobsCount]

theorem workerIterFailure_jobsCount (now : Int) (err : String) (job : JobRec)
    (run : PipelineRunStatus) (st : BrokerState) :
    (workerIterFailure now err job run st).2.2.jobsCount = st.jobsCount := by
  by_cases hc : job.retry_count + 1 > MAX_RETRY
  · rw [workerIterFailure_final now err job run st hc]
  · rw [workerIterFailure_retry now err job run st hc]

theorem workerIterFailure_not_success (now : Int) (err : String) (job : JobRec)
    (run : PipelineRunStatus) (st : BrokerState) :
    ¬ (workerIterFailure now err job run st).1.status = JobStatus.SUCCESS := by
  by_cases hc : job.retry_count + 1 > MAX_RETRY
  · rw [workerIterFailure_final now err job run st hc]
    simp
  · rw [workerIterFailure_retry now err job run st hc]
    simp

theorem updateJob_not_mem (i : Nat) (f : JobRec → JobRec) :
    ∀ jobs : List JobRec, i ∉ jobs.map JobRec.id → updateJob i f jobs = jobs := by
  intro jobs
  induction jobs with
  | nil => intro _; rfl
  | cons j rest ih =>
    intro h
    simp only [List.map_cons, List.mem_cons, not_or] at h
    have hji : ¬ j.id = i := fun hx => h.1 hx.symm
    have htail := ih h.2
    simp only [updateJob, List.map_cons, if_neg hji] at htail ⊢
    rw [htail]

theorem countNonSuccess_updateJob (i : Nat) (f : JobRec → JobRec) :
    ∀ (jobs : List JobRec) (job : JobRec), (jobs.map JobRec.id).Nodup →
      jobs.find? (fun j => j.id = i) = some job →
      countNonSuccess (updateJob i f jobs) + (if job.status = JobStatus.SUCCESS then 0 else 1) =
        countNonSuccess jobs + (if (f job).status = JobStatus.SUCCESS then 0 else 1) := by
  intro jobs
  induction jobs with
  | nil =>
    intro job _ hf
    simp [List.find?] at hf
  | cons j rest ih =>
    intro job hnd hf
    by_cases hji : j.id = i
    · have hf' : some j = some job := by
        rw [← hf]
        simp [List.find?, hji]
      have hj : job = j := (Option.some.inj hf').symm
      subst hj
      have hnotin : i ∉ rest.map JobRec.id := by
        simp only [List.map_cons, List.nodup_cons] at hnd
        rw [← hji]
        exact hnd.1
      have htail := updateJob_not_mem i f rest hnotin
      simp only [updateJob, List.map_cons, if_pos hji] at htail ⊢
      rw [htail]
      simp only [countNonSuccess]
      omega
    · have hf' : rest.find? (fun j => j.id = i) = some job := by
        rw [← hf]
        simp [List.find?, hji]
      have hnd' : (rest.map JobRec.id).Nodup := by
        simp only [List.map_cons, List.nodup_cons] at hnd
        exact hnd.2
      have hrec := ih job hnd' hf'
      simp only [updateJob, List.map_cons, if_neg hji] at hrec ⊢
      simp only [countNonSuccess]
      omega

/-- C8 counterexample: a single-job run whose job fails its final attempt
reaches the terminal state FAILED, yet `jobs_count` remains 1 while the
number of non-terminal jobs is 0 — the worker decrements the counter only
on the SUCCESS transition, refuting the claim. -/
theorem jobs_count_not_decremented_on_failure :
    (failedRunCex.jobs.find? (fun j => j.id = 1)).map JobRec.status =
        some JobStatus.FAILED ∧
    failedRunCex.broker.jobsCount = 1 ∧
    countNonTerminal failedRunCex.jobs = 0 ∧
    failedRunCex.broker.jobsCount ≠ (countNonTerminal failedRunCex.jobs : Int) := by
  decide

/-- C8 (amended): the run's `jobs_count` counter tracks the number of jobs
not in SUCCESS — it is decremented exactly on a job's SUCCESS transition;
a FAILED (dead-letter) transition leaves it unchanged, so it does not count
"jobs not in a terminal state". -/
theorem jobs_count_tracks_success_only (rs : RunState) (i : Nat) (job : JobRec)
    (hnd : (rs.jobs.map JobRec.id).Nodup)
    (hfind : rs.jobs.find? (fun j => j.id = i) = some job)
    (hjs : ¬ job.status = JobStatus.SUCCESS)
    (hinv : rs.broker.jobsCount = (countNonSuccess rs.jobs : Int)) :
    (∀ now err,
      (applyFailure now err i rs).broker.jobsCount = rs.broker.jobsCount ∧
      (applyFailure now err i rs).broker.jobsCount =
        (countNonSuccess (applyFailure now err i rs).jobs : Int)) ∧
    ((applySuccess i rs).broker.jobsCount = rs.broker.jobsCount - 1 ∧
     (applySuccess i rs).broker.jobsCount =
       (countNonSuccess (applySuccess i rs).jobs : Int)) := by
  constructor
  · intro now err
    unfold applyFailure
    rw [hfind]
    simp only []
    have hcount := countNonSuccess_updateJob i
      (fun _ => (workerIterFailure now err job rs.runStatus rs.broker).1) rs.jobs job hnd hfind
    have hns := workerIterFailure_not_success now err job rs.runStatus rs.broker
    rw [if_neg hjs, if_neg hns] at hcount
    constructor
    · exact workerIterFailure_jobsCount now err job rs.runStatus rs.broker
    · rw [workerIterFailure_jobsCount now err job rs.runStatus rs.broker, hinv]
      congr 1
      omega
  · unfold applySuccess
    rw [hfind]
    simp only []
    have hcount := countNonSuccess_updateJob i
      (fun _ => (handleTaskSuccess job rs.runStatus rs.broker).1) rs.jobs job hnd hfind
    have hsucc : ((handleTaskSuccess job rs.runStatus rs.broker).1).status
        = JobStatus.SUCCESS := rfl
    rw [if_neg hjs, if_pos hsucc] at hcount
    constructor
    · exact handleTaskSuccess_jobsCount job rs.runStatus rs.broker
    · rw [handleTaskSuccess_jobsCount job rs.runStatus rs.broker, hinv]
      omega

/-- Witness for the amended C8 theorem on a two-job run with `jobs_count`
2: failing job 1 keeps the counter at 2; succeeding on job 1 drops it to 1. -/
theorem jobs_count_tracks_success_only_witness :
    ((([⟨1, "a", JobStatus.RUNNING, 0, none⟩, ⟨2, "b", JobStatus.PENDING, 0, none⟩] :
        List JobRec).map JobRec.id).Nodup ∧
     ([⟨1, "a", JobStatus.RUNNING, 0, none⟩, ⟨2, "b", JobStatus.PENDING, 0, none⟩] :
        List JobRec).find? (fun j => j.id = 1) = some ⟨1, "a", JobStatus.RUNNING, 0, none⟩ ∧
     ¬ (⟨1, "a", JobStatus.RUNNING, 0, none⟩ : JobRec).status = JobStatus.SUCCESS) ∧
    ((applyFailure 0 "e" 1
        { jobs := [⟨1, "a", JobStatus.RUNNING, 0, none⟩, ⟨2, "b", JobStatus.PENDING, 0, none⟩],
          runStatus := .RUNNING,
          broker := { ready := [], delayed := [], deadLetter := [], locks := [],
                      depsCount := [], reverseGraph := [], jobsCount := 2 } }).broker.jobsCount =
      ({ jobs := [⟨1, "a", JobStatus.RUNNING, 0, none⟩, ⟨2, "b", JobStatus.PENDING, 0, none⟩],
          runStatus := .RUNNING,
          broker := { ready := [], delayed := [], deadLetter := [], locks := [],
                      depsCount := [], reverseGraph := [], jobsCount := 2 } } : RunState).broker.jobsCount) ∧
    ((applySuccess 1
        { jobs := [⟨1, "a", JobStatus.RUNNING, 0, none⟩, ⟨2, "b", JobStatus.PENDING, 0, none⟩],
          runStatus := .RUNNING,
          broker := { ready := [], delayed := [], deadLetter := [], locks := [],
                      depsCount := [], reverseGraph := [], jobsCount := 2 } }).broker.jobsCount =
      ({ jobs := [⟨1, "a", JobStatus.RUNNING, 0, none⟩, ⟨2, "b", JobStatus.PENDING, 0, none⟩],
          runStatus := .RUNNING,
          broker := { ready := [], delayed := [], deadLetter := [], locks := [],
                      depsCount := [], reverseGraph := [], jobsCount := 2 } } : RunState).broker.jobsCount - 1) :=
  ⟨⟨by decide, by decide, by decide⟩,
   ((jobs_count_tracks_success_only
      { jobs := [⟨1, "a", JobStatus.RUNNING, 0, none⟩, ⟨2, "b", JobStatus.PENDING, 0, none⟩],
        runStatus := .RUNNING,
        broker := { ready := [], delayed := [], deadLetter := [], locks := [],
                    depsCount := [], reverseGraph := [], jobsCount := 2 } }
      1 ⟨1, "a", JobStatus.RUNNING, 0, none⟩
      (by decide) (by decide) (by decide) (by decide)).1 0 "e").1,
   ((jobs_count_tracks_success_only
      { jobs := [⟨1, "a", JobStatus.RUNNING, 0, none⟩, ⟨2, "b", JobStatus.PENDING, 0, none⟩],
        runStatus := .RUNNING,
        broker := { ready := [], delayed := [], deadLetter := [], locks := [],
                    depsCount := [], reverseGraph := [], jobsCount := 2 } }
      1 ⟨1, "a", JobStatus.RUNNING, 0, none⟩
      (by decide) (by decide) (by decide) (by decide)).2).1⟩

theorem zombieFold_broker :
    ∀ (items : List JobRec) (st : BrokerState) (jobs : List JobRec),
      (zombieFold items jobs st).2 =
        { st with ready := st.ready ++
            ((items.filter (fun j => alGet j.id st.locks = none)).map JobRec.id) } := by
  intro items
  induction items with
  | nil => intro st jobs; simp [zombieFold]
  | cons j rest ih =>
    intro st jobs
    by_cases hl : alGet j.id st.locks = none
    · simp only [zombieFold, if_pos hl]
      rw [ih]
      simp [List.filter, hl]
    · simp only [zombieFold, if_neg hl]
      rw [ih]
      simp [List.filter, hl]

theorem zombieFold_jobs :
    ∀ (items : List JobRec) (st : BrokerState) (jobs : List JobRec),
      (zombieFold items jobs st).1 =
        jobs.map (fun x =>
          if x.id ∈ ((items.filter (fun j => alGet j.id st.locks = none)).map JobRec.id)
          then { x with status := JobStatus.QUEUED } else x) := by
  intro items
  induction items with
  | nil => intro st jobs; simp [zombieFold]
  | cons j rest ih =>
    intro st jobs
    by_cases hl : alGet j.id st.locks = none
    · simp only [zombieFold, if_pos hl]
      rw [ih]
      have hfil2 : List.filter (fun x : JobRec => alGet x.id st.locks = none) (j :: rest) =
          j :: List.filter (fun x : JobRec => alGet x.id st.locks = none) rest := by
        simp [List.filter_cons, hl]
      rw [hfil2]
      simp only [updateJob, List.map_map, List.map_cons]
      apply List.map_congr_left
      intro x _
      simp only [Function.comp]
      by_cases hx : x.id = j.id
      · simp [hx]
      · simp only [if_neg hx]
        by_cases hmem : x.id ∈
            (rest.filter (fun x : JobRec => alGet x.id st.locks = none)).map JobRec.id
        · simp [hx, hmem]
        · simp [hx, hmem]
    · simp only [zombieFold, if_neg hl]
      rw [ih]
      have hfil2 : List.filter (fun x : JobRec => alGet x.id st.locks = none) (j :: rest) =
          List.filter (fun x : JobRec => alGet x.id st.locks = none) rest := by
        simp [List.filter_cons, hl]
      rw [hfil2]

theorem mem_id_inj :
    ∀ (jobs : List JobRec), (jobs.map JobRec.id).Nodup →
      ∀ a ∈ jobs, ∀ b ∈ jobs, a.id = b.id → a = b := by
  intro jobs
  induction jobs with
  | nil => intro _ a ha; simp at ha
  | cons j rest ih =>
    intro hnd a ha b hb heq
    simp only [List.map_cons, List.nodup_cons] at hnd
    rcases List.mem_cons.mp ha with ha' | ha' <;>
      rcases List.mem_cons.mp hb with hb' | hb'
    · rw [ha', hb']
    · exfalso
      apply hnd.1
      rw [← ha', heq]
      exact List.mem_map_of_mem JobRec.id hb'
    · exfalso
      apply hnd.1
      rw [← hb', ← heq]
      exact List.mem_map_of_mem JobRec.id ha'
    · exact ih hnd.2 a ha' b hb' heq

theorem filter_running_locks (st : BrokerState) :
    ∀ jobs : List JobRec,
      (jobs.filter (fun j => j.status = JobStatus.RUNNING)).filter
          (fun j => alGet j.id st.locks = none) =
        jobs.filter (fun j => j.status = JobStatus.RUNNING ∧ alGet j.id st.locks = none) := by
  intro jobs
  induction jobs with
  | nil => rfl
  | cons j rest ih =>
    by_cases hr : j.status = JobStatus.RUNNING
    · by_cases hl : alGet j.id st.locks = none
      · simp [List.filter, hr, hl, ih]
      · simp [List.filter, hr, hl, ih]
    · have hc : ¬ (j.status = JobStatus.RUNNING ∧ alGet j.id st.locks = none) := by
        intro hx
        exact hr hx.1
      simp [List.filter, hr, hc, ih]

/-- C10: each zombie-reclamation pass examines exactly the jobs whose store
status is RUNNING; those whose lease key is absent are set to QUEUED and
their ids pushed (in order) to the tail of the ready list; every other job
— RUNNING with a live lease, or not RUNNING at all — is left entirely
unchanged, and no other broker state is touched. -/
theorem zombie_checker_spec (jobs : List JobRec) (st : BrokerState)
    (hnd : (jobs.map JobRec.id).Nodup) :
    (zombie_job_checker jobs st).1 =
      jobs.map (fun x =>
        if x.status = JobStatus.RUNNING ∧ alGet x.id st.locks = none
        then { x with status := JobStatus.QUEUED } else x) ∧
    (zombie_job_checker jobs st).2.ready = st.ready ++
      ((jobs.filter (fun j => j.status = JobStatus.RUNNING ∧
          alGet j.id st.locks = none)).map JobRec.id) ∧
    (zombie_job_checker jobs st).2.delayed = st.delayed ∧
    (zombie_job_checker jobs st).2.deadLetter = st.deadLetter ∧
    (zombie_job_checker jobs st).2.locks = st.locks ∧
    (zombie_job_checker jobs st).2.depsCount = st.depsCount ∧
    (zombie_job_checker jobs st).2.reverseGraph = st.reverseGraph ∧
    (zombie_job_checker jobs st).2.jobsCount = st.jobsCount := by
  have hbroker := zombieFold_broker (jobs.filter (fun j => j.status = JobStatus.RUNNING)) st jobs
  have hjobs := zombieFold_jobs (jobs.filter (fun j => j.status = JobStatus.RUNNING)) st jobs
  have hchk1 : (zombie_job_checker jobs st).1 =
      (zombieFold (jobs.filter (fun j => j.status = JobStatus.RUNNING)) jobs st).1 := rfl
  have hchk2 : (zombie_job_checker jobs st).2 =
      (zombieFold (jobs.filter (fun j => j.status = JobStatus.RUNNING)) jobs st).2 := rfl
  refine ⟨?_, ?_, ?_, ?_, ?_, ?_, ?_, ?_⟩
  · rw [hchk1, hjobs]
    apply List.map_congr_left
    intro x hx
    by_cases hcond : x.status = JobStatus.RUNNING ∧ alGet x.id st.locks = none
    · have hmem : x.id ∈ ((jobs.filter (fun j => j.status = JobStatus.RUNNING)).filter
          (fun j => alGet j.id st.locks = none)).map JobRec.id := by
        apply List.mem_map_of_mem
        rw [filter_running_locks]
        rw [List.mem_filter]
        exact ⟨hx, by simp [hcond.1, hcond.2]⟩
      rw [if_pos hmem, if_pos hcond]
    · have hmem : x.id ∉ ((jobs.filter (fun j => j.status = JobStatus.RUNNING)).filter
          (fun j => alGet j.id st.locks = none)).map JobRec.id := by
        intro hin
        rcases List.mem_map.mp hin with ⟨y, hy, hyid⟩
        rw [filter_running_locks] at hy
        rw [List.mem_filter] at hy
        have hyjobs := hy.1
        have hyprop : y.status = JobStatus.RUNNING ∧ alGet y.id st.locks = none := by
          have := hy.2
          simpa using this
        have hxy : y = x := mem_id_inj jobs hnd y hyjobs x hx hyid
        rw [hxy] at hyprop
        exact hcond hyprop
      rw [if_neg hmem, if_neg hcond]
  · rw [hchk2, hbroker, filter_running_locks st jobs]
  · rw [hchk2, hbroker]
  · rw [hchk2, hbroker]
  · rw [hchk2, hbroker]
  · rw [hchk2, hbroker]
  · rw [hchk2, hbroker]
  · rw [hchk2, hbroker]

/-- Witness for C10: three jobs, one zombie (job 1), one leased RUNNING job
(job 2), one PENDING job (job 3). -/
theorem zombie_checker_spec_witness :
    ((zombieJobsW.map JobRec.id).Nodup) ∧
    ((zombie_job_checker zombieJobsW zombieStW).1 =
      zombieJobsW.map (fun x =>
        if x.status = JobStatus.RUNNING ∧ alGet x.id zombieStW.locks = none
        then { x with status := JobStatus.QUEUED } else x) ∧
    (zombie_job_checker zombieJobsW zombieStW).2.ready = zombieStW.ready ++
      ((zombieJobsW.filter (fun j => j.status = JobStatus.RUNNING ∧
          alGet j.id zombieStW.locks = none)).map JobRec.id) ∧
    (zombie_job_checker zombieJobsW zombieStW).2.delayed = zombieStW.delayed ∧
    (zombie_job_checker zombieJobsW zombieStW).2.deadLetter = zombieStW.deadLetter ∧
    (zombie_job_checker zombieJobsW zombieStW).2.locks = zombieStW.locks ∧
    (zombie_job_checker zombieJobsW zombieStW).2.depsCount = zombieStW.depsCount ∧
    (zombie_job_checker zombieJobsW zombieStW).2.reverseGraph = zombieStW.reverseGraph ∧
    (zombie_job_checker zombieJobsW zombieStW).2.jobsCount = zombieStW.jobsCount) :=
  ⟨by decide, zombie_checker_spec zombieJobsW zombieStW (by decide)⟩

theorem alGet_self {κ β : Type} [DecidableEq κ] :
    ∀ (l : List (κ × β)), (l.map Prod.fst).Nodup → ∀ p ∈ l, alGet p.1 l = some p.2 := by
  intro l
  induction l with
  | nil => intro _ p hp; simp at hp
  | cons q rest ih =>
    intro hnd p hp
    simp only [List.map_cons, List.nodup_cons] at hnd
    rcases List.mem_cons.mp hp with hp' | hp'
    · subst hp'
      simp [alGet]
    · have hne : ¬ q.1 = p.1 := by
        intro he
        apply hnd.1
        rw [he]
        exact List.mem_map_of_mem Prod.fst hp'
      simp only [alGet, if_neg hne]
      exact ih hnd.2 p hp'

theorem alGet_map_key {κ β γ : Type} [DecidableEq κ] (key : γ → κ) (f : γ → β) :
    ∀ (l : List γ), (l.map key).Nodup →
      ∀ p ∈ l, alGet (key p) (l.map (fun q => (key q, f q))) = some (f p) := by
  intro l
  induction l with
  | nil => intro _ p hp; simp at hp
  | cons q rest ih =>
    intro hnd p hp
    simp only [List.map_cons, List.nodup_cons] at hnd
    rcases List.mem_cons.mp hp with hp' | hp'
    · subst hp'
      simp [alGet]
    · have hne : ¬ key q = key p := by
        intro he
        apply hnd.1
        rw [he]
        exact List.mem_map_of_mem key hp'
      simp only [List.map_cons]
      simp [alGet, hne]
      exact ih hnd.2 p hp'

theorem alGet_ext {κ β : Type} [DecidableEq κ] :
    ∀ (l₁ l₂ : List (κ × β)), l₁.map Prod.fst = l₂.map Prod.fst →
      (l₁.map Prod.fst).Nodup →
      (∀ k ∈ l₁.map Prod.fst, alGet k l₁ = alGet k l₂) → l₁ = l₂ := by
  intro l₁
  induction l₁ with
  | nil =>
    intro l₂ hk _ _
    cases l₂ with
    | nil => rfl
    | cons q rest₂ => simp at hk
  | cons p rest ih =>
    intro l₂ hk hnd hget
    cases l₂ with
    | nil => simp at hk
    | cons q rest₂ =>
      simp only [List.map_cons] at hk
      have hkey : p.1 = q.1 := (List.cons.injEq _ _ _ _ ▸ hk).1
      have htails : rest.map Prod.fst = rest₂.map Prod.fst :=
        (List.cons.injEq _ _ _ _ ▸ hk).2
      simp only [List.map_cons, List.nodup_cons] at hnd
      have hv := hget p.1 (by simp)
      have hv₁ : alGet p.1 (p :: rest) = some p.2 := by simp [alGet]
      have hv₂ : alGet p.1 (q :: rest₂) = some q.2 := by
        simp [alGet, hkey.symm]
      rw [hv₁, hv₂] at hv
      have hpq : p = q := Prod.ext hkey (Option.some.inj hv)
      have hrest : rest = rest₂ := by
        apply ih rest₂ htails hnd.2
        intro k hkmem
        have hkp : ¬ p.1 = k := by
          intro he
          apply hnd.1
          rw [he]
          exact hkmem
        have := hget k (by simp [hkmem])
        simp only [alGet, if_neg hkp] at this
        have hkq : ¬ q.1 = k := by
          rw [← hkey]
          exact hkp
        simp only [alGet, if_neg hkq] at this
        exact this
      rw [hpq, hrest]

theorem buildRev_inner {β : Type} (x : β) :
    ∀ (deps : List String) (rev : List (String × List β)) (t : String),
      alGet t (deps.foldl (fun rev parent => alUpdate parent (fun li => li ++ [x]) rev) rev) =
        (alGet t rev).map (fun li => li ++ List.replicate (countKey t deps) x) := by
  intro deps
  induction deps with
  | nil =>
    intro rev t
    simp only [List.foldl_nil, countKey, List.replicate]
    cases alGet t rev <;> simp
  | cons p rest ih =>
    intro rev t
    simp only [List.foldl_cons]
    rw [ih]
    by_cases hpt : p = t
    · subst hpt
      rw [alGet_alUpdate_self]
      have hck : countKey p (p :: rest) = countKey p rest + 1 := by
        simp [countKey]
        omega
      rw [hck]
      cases alGet p rev <;>
        simp [List.replicate_succ, List.append_assoc]
    · rw [alGet_alUpdate_ne p t _ _ hpt]
      have hck : countKey t (p :: rest) = countKey t rest := by
        simp [countKey, hpt]
      rw [hck]

theorem buildRev_outer (job_map : List (String × JobRec)) :
    ∀ (l : List (String × TaskDef)) (rev : List (String × List Nat)) (t : String),
      alGet t (l.foldl (fun rev p => p.2.dependencies.foldl
          (fun rev parent => alUpdate parent (fun li => li ++ [jidOf job_map p.1]) rev) rev)
          rev) =
        (alGet t rev).map (fun li => li ++ l.flatMap
          (fun p => List.replicate (countKey t p.2.dependencies) (jidOf job_map p.1))) := by
  intro l
  induction l with
  | nil =>
    intro rev t
    simp only [List.foldl_nil, List.flatMap_nil]
    cases alGet t rev <;> simp
  | cons p rest ih =>
    intro rev t
    simp only [List.foldl_cons]
    rw [ih, buildRev_inner, List.flatMap_cons]
    cases alGet t rev <;> simp [List.append_assoc]

theorem foldl_inner_keys {β : Type} (x : β) :
    ∀ (deps : List String) (rev : List (String × List β)),
      ((deps.foldl (fun rev parent => alUpdate parent (fun li => li ++ [x]) rev) rev)).map
          Prod.fst = rev.map Prod.fst := by
  intro deps
  induction deps with
  | nil => intro rev; rfl
  | cons p rest ih =>
    intro rev
    simp only [List.foldl_cons]
    rw [ih, alUpdate_keys]

theorem buildRev_keys (d : List (String × TaskDef)) (job_map : List (String × JobRec)) :
    (buildRev d job_map).map Prod.fst = d.map Prod.fst := by
  unfold buildRev
  have houter : ∀ (l : List (String × TaskDef)) (rev : List (String × List Nat)),
      ((l.foldl (fun rev p => p.2.dependencies.foldl
          (fun rev parent => alUpdate parent (fun li => li ++ [jidOf job_map p.1]) rev) rev)
          rev)).map Prod.fst = rev.map Prod.fst := by
    intro l
    induction l with
    | nil => intro rev; rfl
    | cons p rest ih =>
      intro rev
      simp only [List.foldl_cons]
      rw [ih, foldl_inner_keys]
  rw [houter, List.map_map]
  rfl

theorem filterMap_map_none {α β γ : Type} (f : α → β) (g : β → Option γ)
    (h : ∀ a, g (f a) = none) : ∀ l : List α, (l.map f).filterMap g = [] := by
  intro l
  induction l with
  | nil => rfl
  | cons a rest ih => simp [List.filterMap_cons, h a, ih]

theorem filterMap_map_some {α β γ : Type} (f : α → β) (g : β → Option γ) (e : α → γ)
    (h : ∀ a, g (f a) = some (e a)) : ∀ l : List α, (l.map f).filterMap g = l.map e := by
  intro l
  induction l with
  | nil => rfl
  | cons a rest ih => simp [List.filterMap_cons, h a, ih]

theorem filterMap_flatMap {α β γ : Type} (f : α → List β) (g : β → Option γ) :
    ∀ l : List α, (l.flatMap f).filterMap g = l.flatMap (fun a => (f a).filterMap g) := by
  intro l
  induction l with
  | nil => rfl
  | cons a rest ih => simp [List.flatMap_cons, List.filterMap_append, ih]

theorem flatMap_congr_left {α β : Type} {l : List α} {f g : α → List β}
    (h : ∀ a ∈ l, f a = g a) : l.flatMap f = l.flatMap g := by
  induction l with
  | nil => rfl
  | cons a rest ih =>
    simp only [List.flatMap_cons]
    rw [h a (by simp), ih (fun a ha => h a (by simp [ha]))]

theorem flatMap_map {α β γ : Type} (f : α → β) (g : β → List γ) :
    ∀ l : List α, (l.map f).flatMap g = l.flatMap (fun a => g (f a)) := by
  intro l
  induction l with
  | nil => rfl
  | cons a rest ih => simp [List.flatMap_cons, ih]

theorem flatMap_const_nil {α γ : Type} : ∀ l : List α, l.flatMap (fun _ => ([] : List γ)) = [] := by
  intro l
  induction l with
  | nil => rfl
  | cons a rest ih => simp [List.flatMap_cons, ih]

theorem map_eq_enum_map {α β : Type} (f : α → β) (l : List α) :
    l.map f = l.enum.map (fun q => f q.2) := by
  conv_lhs => rw [← List.enum_map_snd l]
  rw [List.map_map]
  rfl

theorem flatMap_eq_enum_flatMap {α β : Type} (f : α → List β) (l : List α) :
    l.flatMap f = l.enum.flatMap (fun q => f q.2) := by
  conv_lhs => rw [← List.enum_map_snd l]
  rw [flatMap_map]

/-- C9: triggering a run on a pipeline — with the run and its jobs created
per the spec-modelled `create_pipeline_run` — issues exactly these writes,
in order: `jobs_count` ← |jobs|; `deps_count` maps every job id to its
task's dependency count; `reverse_graph` maps every job id to the ordered
job ids of its children computed from the definition; exactly the jobs of
dependency-free tasks are pushed to the ready-list tail and set QUEUED;
and the run status is set to RUNNING as the last write. -/
theorem trigger_run_spec (rid : Nat) (d : List (String × TaskDef))
    (hnd : (d.map Prod.fst).Nodup) :
    jobsCountWrites (trigger_pipeline_run d (create_pipeline_run rid d)) = [d.length] ∧
    depsWrites (trigger_pipeline_run d (create_pipeline_run rid d)) =
      d.enum.map (fun q => (q.1 + 1, q.2.2.dependencies.length)) ∧
    revWrites (trigger_pipeline_run d (create_pipeline_run rid d)) =
      d.enum.map (fun q => (q.1 + 1, childJobIds d q.2.1)) ∧
    readyPushes (trigger_pipeline_run d (create_pipeline_run rid d)) =
      (d.enum.filter (fun q => q.2.2.dependencies = [])).map (fun q => q.1 + 1) ∧
    statusWrites (trigger_pipeline_run d (create_pipeline_run rid d)) =
      (d.enum.filter (fun q => q.2.2.dependencies = [])).map
        (fun q => (q.1 + 1, JobStatus.QUEUED)) ∧
    runStatusWrites (trigger_pipeline_run d (create_pipeline_run rid d)) =
      [PipelineRunStatus.RUNNING] ∧
    (trigger_pipeline_run d (create_pipeline_run rid d)).getLast? =
      some (Effect.setRunStatus PipelineRunStatus.RUNNING) := by
  have hkeysE : d.enum.map (fun q => q.2.1) = d.map Prod.fst := by
    rw [show (fun q : Nat × (String × TaskDef) => q.2.1) = (Prod.fst ∘ Prod.snd) from rfl,
      ← List.map_map, List.enum_map_snd]
  have hndE : (d.enum.map (fun q : Nat × (String × TaskDef) => q.2.1)).Nodup := by
    rw [hkeysE]; exact hnd
  have hjm : jobMapOf (create_pipeline_run rid d) =
      d.enum.map (fun q => (q.2.1, mkJob q)) := by
    unfold jobMapOf create_pipeline_run
    rw [List.map_map]
    rfl
  have hget : ∀ q ∈ d.enum,
      alGet q.2.1 (jobMapOf (create_pipeline_run rid d)) = some (mkJob q) := by
    intro q hq
    rw [hjm]
    exact alGet_map_key (fun q : Nat × (String × TaskDef) => q.2.1) mkJob d.enum hndE q hq
  have hjid : ∀ q ∈ d.enum,
      jidOf (jobMapOf (create_pipeline_run rid d)) q.2.1 = q.1 + 1 := by
    intro q hq
    unfold jidOf
    rw [hget q hq]
    rfl
  have hmemd : ∀ q ∈ d.enum, q.2 ∈ d := by
    intro q hq
    have h2 := List.mem_map_of_mem Prod.snd hq
    rw [List.enum_map_snd] at h2
    exact h2
  have hdepsOf : ∀ q ∈ d.enum, depsOfTask d q.2.1 = q.2.2.dependencies := by
    intro q hq
    unfold depsOfTask
    rw [alGet_self d hnd q.2 (hmemd q hq)]
  have htr0 : trigger_pipeline_run d (create_pipeline_run rid d) =
      [Effect.setJobsCount (d.enum.map mkJob).length]
      ++ d.map (fun p => Effect.hsetDeps
          (jidOf (jobMapOf (create_pipeline_run rid d)) p.1) p.2.dependencies.length)
      ++ (buildRev d (jobMapOf (create_pipeline_run rid d))).map
          (fun p => Effect.hsetRev (jidOf (jobMapOf (create_pipeline_run rid d)) p.1) p.2)
      ++ ((d.enum.map mkJob).filter (fun j => depsOfTask d j.task_id = [])).flatMap
          (fun j => [Effect.rpushReady j.id, Effect.setJobStatus j.id JobStatus.QUEUED])
      ++ [Effect.setRunStatus PipelineRunStatus.RUNNING] := rfl
  have happJC : ∀ l₁ l₂ : List Effect,
      jobsCountWrites (l₁ ++ l₂) = jobsCountWrites l₁ ++ jobsCountWrites l₂ :=
    fun l₁ l₂ => List.filterMap_append l₁ l₂ _
  have happDW : ∀ l₁ l₂ : List Effect,
      depsWrites (l₁ ++ l₂) = depsWrites l₁ ++ depsWrites l₂ :=
    fun l₁ l₂ => List.filterMap_append l₁ l₂ _
  have happRV : ∀ l₁ l₂ : List Effect,
      revWrites (l₁ ++ l₂) = revWrites l₁ ++ revWrites l₂ :=
    fun l₁ l₂ => List.filterMap_append l₁ l₂ _
  have happRP : ∀ l₁ l₂ : List Effect,
      readyPushes (l₁ ++ l₂) = readyPushes l₁ ++ readyPushes l₂ :=
    fun l₁ l₂ => List.filterMap_append l₁ l₂ _
  have happSW : ∀ l₁ l₂ : List Effect,
      statusWrites (l₁ ++ l₂) = statusWrites l₁ ++ statusWrites l₂ :=
    fun l₁ l₂ => List.filterMap_append l₁ l₂ _
  have happRS : ∀ l₁ l₂ : List Effect,
      runStatusWrites (l₁ ++ l₂) = runStatusWrites l₁ ++ runStatusWrites l₂ :=
    fun l₁ l₂ => List.filterMap_append l₁ l₂ _
  have hCjc : ∀ roots : List JobRec, jobsCountWrites (roots.flatMap (fun j =>
      [Effect.rpushReady j.id, Effect.setJobStatus j.id JobStatus.QUEUED])) = [] := by
    intro roots
    induction roots with
    | nil => rfl
    | cons j rest ih =>
      simp only [List.flatMap_cons]
      rw [happJC, ih]
      rfl
  have hCdw : ∀ roots : List JobRec, depsWrites (roots.flatMap (fun j =>
      [Effect.rpushReady j.id, Effect.setJobStatus j.id JobStatus.QUEUED])) = [] := by
    intro roots
    induction roots with
    | nil => rfl
    | cons j rest ih =>
      simp only [List.flatMap_cons]
      rw [happDW, ih]
      rfl
  have hCrv : ∀ roots : List JobRec, revWrites (roots.flatMap (fun j =>
      [Effect.rpushReady j.id, Effect.setJobStatus j.id JobStatus.QUEUED])) = [] := by
    intro roots
    induction roots with
    | nil => rfl
    | cons j rest ih =>
      simp only [List.flatMap_cons]
      rw [happRV, ih]
      rfl
  have hCrs : ∀ roots : List JobRec, runStatusWrites (roots.flatMap (fun j =>
      [Effect.rpushReady j.id, Effect.setJobStatus j.id JobStatus.QUEUED])) = [] := by
    intro roots
    induction roots with
    | nil => rfl
    | cons j rest ih =>
      simp only [List.flatMap_cons]
      rw [happRS, ih]
      rfl
  have hCrp : ∀ roots : List JobRec, readyPushes (roots.flatMap (fun j =>
      [Effect.rpushReady j.id, Effect.setJobStatus j.id JobStatus.QUEUED])) =
      roots.map JobRec.id := by
    intro roots
    induction roots with
    | nil => rfl
    | cons j rest ih =>
      simp only [List.flatMap_cons, List.map_cons]
      rw [happRP, ih]
      rfl
  have hCsw : ∀ roots : List JobRec, statusWrites (roots.flatMap (fun j =>
      [Effect.rpushReady j.id, Effect.setJobStatus j.id JobStatus.QUEUED])) =
      roots.map (fun j => (j.id, JobStatus.QUEUED)) := by
    intro roots
    induction roots with
    | nil => rfl
    | cons j rest ih =>
      simp only [List.flatMap_cons, List.map_cons]
      rw [happSW, ih]
      rfl
  have hroots : ((d.enum.map mkJob).filter (fun j => depsOfTask d j.task_id = [])) =
      (d.enum.filter (fun q => q.2.2.dependencies = [])).map mkJob := by
    rw [List.filter_map]
    have hfc : d.enum.filter ((fun j => decide (depsOfTask d j.task_id = [])) ∘ mkJob) =
        d.enum.filter (fun q => decide (q.2.2.dependencies = [])) := by
      apply List.filter_congr
      intro q hq
      simp [Function.comp, mkJob, hdepsOf q hq]
    rw [hfc]
  refine ⟨?_, ?_, ?_, ?_, ?_, ?_, ?_⟩
  · rw [htr0, happJC, happJC, happJC, happJC]
    have hA : jobsCountWrites (d.map (fun p => Effect.hsetDeps
        (jidOf (jobMapOf (create_pipeline_run rid d)) p.1) p.2.dependencies.length)) = [] :=
      filterMap_map_none _ _ (fun _ => rfl) d
    have hB : jobsCountWrites ((buildRev d (jobMapOf (create_pipeline_run rid d))).map
        (fun p => Effect.hsetRev
          (jidOf (jobMapOf (create_pipeline_run rid d)) p.1) p.2)) = [] :=
      filterMap_map_none _ _ (fun _ => rfl) _
    rw [hA, hB, hCjc]
    simp [jobsCountWrites, List.filterMap_cons, List.length_map, List.enum_length]
  · rw [htr0, happDW, happDW, happDW, happDW]
    have hA : depsWrites (d.map (fun p => Effect.hsetDeps
        (jidOf (jobMapOf (create_pipeline_run rid d)) p.1) p.2.dependencies.length)) =
        d.map (fun p =>
          (jidOf (jobMapOf (create_pipeline_run rid d)) p.1, p.2.dependencies.length)) := by
      unfold depsWrites
      apply filterMap_map_some
      intro a
      rfl
    have hB : depsWrites ((buildRev d (jobMapOf (create_pipeline_run rid d))).map
        (fun p => Effect.hsetRev
          (jidOf (jobMapOf (create_pipeline_run rid d)) p.1) p.2)) = [] :=
      filterMap_map_none _ _ (fun _ => rfl) _
    rw [hA, hB, hCdw]
    have hhead : depsWrites [Effect.setJobsCount (d.enum.map mkJob).length] = [] := rfl
    have htail : depsWrites [Effect.setRunStatus PipelineRunStatus.RUNNING] = [] := rfl
    rw [hhead, htail]
    simp only [List.nil_append, List.append_nil]
    rw [map_eq_enum_map]
    apply List.map_congr_left
    intro q hq
    simp only [hjid q hq]
  · rw [htr0, happRV, happRV, happRV, happRV]
    have hA : revWrites (d.map (fun p => Effect.hsetDeps
        (jidOf (jobMapOf (create_pipeline_run rid d)) p.1) p.2.dependencies.length)) = [] :=
      filterMap_map_none _ _ (fun _ => rfl) d
    have hB : revWrites ((buildRev d (jobMapOf (create_pipeline_run rid d))).map
        (fun p => Effect.hsetRev
          (jidOf (jobMapOf (create_pipeline_run rid d)) p.1) p.2)) =
        (buildRev d (jobMapOf (create_pipeline_run rid d))).map
          (fun p => (jidOf (jobMapOf (create_pipeline_run rid d)) p.1, p.2)) := by
      unfold revWrites
      apply filterMap_map_some
      intro a
      rfl
    rw [hA, hB, hCrv]
    have hhead : revWrites [Effect.setJobsCount (d.enum.map mkJob).length] = [] := rfl
    have htail : revWrites [Effect.setRunStatus PipelineRunStatus.RUNNING] = [] := rfl
    rw [hhead, htail]
    simp only [List.nil_append, List.append_nil]
    have hbr : buildRev d (jobMapOf (create_pipeline_run rid d)) =
        d.map (fun p => (p.1, d.flatMap (fun r => List.replicate
          (countKey p.1 r.2.dependencies)
          (jidOf (jobMapOf (create_pipeline_run rid d)) r.1)))) := by
      apply alGet_ext
      · rw [buildRev_keys, List.map_map]
        rfl
      · rw [buildRev_keys]
        exact hnd
      · intro k hk
        rw [buildRev_keys] at hk
        rcases List.mem_map.mp hk with ⟨p, hp, hpk⟩
        subst hpk
        unfold buildRev
        rw [buildRev_outer]
        have h0 : alGet p.1 (d.map (fun r => (r.1, ([] : List Nat)))) = some [] :=
          alGet_map_key Prod.fst (fun _ => ([] : List Nat)) d hnd p hp
        rw [h0]
        have h1 : alGet p.1 (d.map (fun r => (r.1, d.flatMap (fun r2 => List.replicate
            (countKey r.1 r2.2.dependencies)
            (jidOf (jobMapOf (create_pipeline_run rid d)) r2.1))))) =
            some (d.flatMap (fun r2 => List.replicate (countKey p.1 r2.2.dependencies)
              (jidOf (jobMapOf (create_pipeline_run rid d)) r2.1))) :=
          alGet_map_key Prod.fst _ d hnd p hp
        rw [h1]
        simp
    rw [hbr, List.map_map, map_eq_enum_map]
    apply List.map_congr_left
    intro q hq
    simp only [Function.comp]
    have h2 : d.flatMap (fun r => List.replicate (countKey q.2.1 r.2.dependencies)
        (jidOf (jobMapOf (create_pipeline_run rid d)) r.1)) = childJobIds d q.2.1 := by
      unfold childJobIds
      rw [flatMap_eq_enum_flatMap]
      apply flatMap_congr_left
      intro r hr
      rw [hjid r hr]
    rw [hjid q hq, h2]
  · rw [htr0, happRP, happRP, happRP, happRP]
    have hA : readyPushes (d.map (fun p => Effect.hsetDeps
        (jidOf (jobMapOf (create_pipeline_run rid d)) p.1) p.2.dependencies.length)) = [] :=
      filterMap_map_none _ _ (fun _ => rfl) d
    have hB : readyPushes ((buildRev d (jobMapOf (create_pipeline_run rid d))).map
        (fun p => Effect.hsetRev
          (jidOf (jobMapOf (create_pipeline_run rid d)) p.1) p.2)) = [] :=
      filterMap_map_none _ _ (fun _ => rfl) _
    rw [hA, hB, hCrp, hroots]
    have hhead : readyPushes [Effect.setJobsCount (d.enum.map mkJob).length] = [] := rfl
    have htail : readyPushes [Effect.setRunStatus PipelineRunStatus.RUNNING] = [] := rfl
    rw [hhead, htail]
    simp only [List.nil_append, List.append_nil]
    rw [List.map_map]
    rfl
  · rw [htr0, happSW, happSW, happSW, happSW]
    have hA : statusWrites (d.map (fun p => Effect.hsetDeps
        (jidOf (jobMapOf (create_pipeline_run rid d)) p.1) p.2.dependencies.length)) = [] :=
      filterMap_map_none _ _ (fun _ => rfl) d
    have hB : statusWrites ((buildRev d (jobMapOf (create_pipeline_run rid d))).map
        (fun p => Effect.hsetRev
          (jidOf (jobMapOf (create_pipeline_run rid d)) p.1) p.2)) = [] :=
      filterMap_map_none _ _ (fun _ => rfl) _
    rw [hA, hB, hCsw, hroots]
    have hhead : statusWrites [Effect.setJobsCount (d.enum.map mkJob).length] = [] := rfl
    have htail : statusWrites [Effect.setRunStatus PipelineRunStatus.RUNNING] = [] := rfl
    rw [hhead, htail]
    simp only [List.nil_append, List.append_nil]
    rw [List.map_map]
    rfl
  · rw [htr0, happRS, happRS, happRS, happRS]
    have hA : runStatusWrites (d.map (fun p => Effect.hsetDeps
        (jidOf (jobMapOf (create_pipeline_run rid d)) p.1) p.2.dependencies.length)) = [] :=
      filterMap_map_none _ _ (fun _ => rfl) d
    have hB : runStatusWrites ((buildRev d (jobMapOf (create_pipeline_run rid d))).map
        (fun p => Effect.hsetRev
          (jidOf (jobMapOf (create_pipeline_run rid d)) p.1) p.2)) = [] :=
      filterMap_map_none _ _ (fun _ => rfl) _
    rw [hA, hB, hCrs]
    rfl
  · rw [htr0]
    exact List.getLast?_concat _

theorem alGet_none_of_not_mem {κ β : Type} [DecidableEq κ] {k : κ} :
    ∀ {l : List (κ × β)}, k ∉ l.map Prod.fst → alGet k l = none := by
  intro l
  induction l with
  | nil => intro _; rfl
  | cons p rest ih =>
    intro h
    simp only [List.map_cons, List.mem_cons, not_or] at h
    have hne : ¬ p.1 = k := fun hx => h.1 hx.symm
    simp only [alGet, if_neg hne]
    exact ih h.2

theorem alGet_isSome_iff_mem {κ β : Type} [DecidableEq κ] (k : κ) :
    ∀ (l : List (κ × β)), (alGet k l).isSome ↔ k ∈ l.map Prod.fst := by
  intro l
  induction l with
  | nil => simp [alGet]
  | cons p rest ih =>
    by_cases hp : p.1 = k
    · simp [alGet, hp]
    · have : ¬ k = p.1 := fun hx => hp hx.symm
      simp [alGet, hp, ih, this]

theorem alGet_isSome_alUpdate {κ β : Type} [DecidableEq κ] (k q : κ) (f : β → β)
    (l : List (κ × β)) :
    (alGet q (alUpdate k f l)).isSome = (alGet q l).isSome := by
  by_cases h : k = q
  · subst h
    rw [alGet_alUpdate_self]
    cases alGet k l <;> rfl
  · rw [alGet_alUpdate_ne k q f l h]

theorem buildDeps_ok (t : String) :
    ∀ (deps : List String) (g : List (String × List String)) (ind : List (String × Int)),
      (∀ q ∈ deps, (alGet q g).isSome) →
      buildDeps t deps g ind = .ok (graphAppendAll t deps g, indAddAll t deps ind) := by
  intro deps
  induction deps with
  | nil => intro g ind _; rfl
  | cons p rest ih =>
    intro g ind h
    have hp : (alGet p g).isSome := h p (by simp)
    simp only [buildDeps, if_pos hp]
    have hrest : ∀ q ∈ rest, (alGet q (alUpdate p (fun l => l ++ [t]) g)).isSome := by
      intro q hq
      rw [alGet_isSome_alUpdate]
      exact h q (by simp [hq])
    rw [ih _ _ hrest]
    rfl

theorem buildDeps_err (t : String) :
    ∀ (deps : List String) (g : List (String × List String)) (ind : List (String × Int)),
      (∃ q ∈ deps, ¬ (alGet q g).isSome) →
      ∃ p, buildDeps t deps g ind = .error (.unknownDependency t p) ∧ p ∈ deps ∧
        ¬ (alGet p g).isSome := by
  intro deps
  induction deps with
  | nil => intro g ind h; simp at h
  | cons q rest ih =>
    intro g ind h
    by_cases hq : (alGet q g).isSome
    · have hrest : ∃ p ∈ rest, ¬ (alGet p g).isSome := by
        rcases h with ⟨p, hp, hps⟩
        rcases List.mem_cons.mp hp with hp' | hp'
        · exact absurd (hp' ▸ hq) hps
        · exact ⟨p, hp', hps⟩
      have hrest' : ∃ p ∈ rest, ¬ (alGet p (alUpdate q (fun l => l ++ [t]) g)).isSome := by
        rcases hrest with ⟨p, hp, hps⟩
        refine ⟨p, hp, ?_⟩
        rw [show (alGet p (alUpdate q (fun l => l ++ [t]) g)).isSome =
            (alGet p g).isSome from alGet_isSome_alUpdate q p _ g]
        exact hps
      rcases ih _ (alUpdate t (fun v => v + 1) ind) hrest' with ⟨p, he, hpmem, hps⟩
      refine ⟨p, ?_, by simp [hpmem], ?_⟩
      · simp only [buildDeps, if_pos hq]
        exact he
      · rw [show (alGet p (alUpdate q (fun l => l ++ [t]) g)).isSome =
            (alGet p g).isSome from alGet_isSome_alUpdate q p _ g] at hps
        exact hps
    · refine ⟨q, ?_, by simp, hq⟩
      simp only [buildDeps, if_neg hq]

theorem graphAppendAll_get (t : String) (deps : List String)
    (g : List (String × List String)) (q : String) :
    alGet q (graphAppendAll t deps g) =
      (alGet q g).map (fun li => li ++ List.replicate (countKey q deps) t) := by
  unfold graphAppendAll
  exact buildRev_inner t deps g q

theorem graphAppendAll_keys (t : String) (deps : List String)
    (g : List (String × List String)) :
    (graphAppendAll t deps g).map Prod.fst = g.map Prod.fst := by
  unfold graphAppendAll
  exact foldl_inner_keys t deps g

theorem indAddAll_get_ne (t q : String) (h : ¬ q = t) :
    ∀ (deps : List String) (ind : List (String × Int)),
      alGet q (indAddAll t deps ind) = alGet q ind := by
  intro deps
  induction deps with
  | nil => intro ind; rfl
  | cons p rest ih =>
    intro ind
    unfold indAddAll
    simp only [List.foldl_cons]
    have := ih (alUpdate t (fun v => v + 1) ind)
    unfold indAddAll at this
    rw [this, alGet_alUpdate_ne t q _ ind (fun hx => h hx.symm)]

theorem indAddAll_get_self (t : String) :
    ∀ (deps : List String) (ind : List (String × Int)),
      alGet t (indAddAll t deps ind) =
        (alGet t ind).map (fun v => v + (deps.length : Int)) := by
  intro deps
  induction deps with
  | nil =>
    intro ind
    cases h : alGet t ind <;> simp [indAddAll, h]
  | cons p rest ih =>
    intro ind
    unfold indAddAll
    simp only [List.foldl_cons]
    have := ih (alUpdate t (fun v => v + 1) ind)
    unfold indAddAll at this
    rw [this, alGet_alUpdate_self]
    cases h : alGet t ind
    · simp [h]
    · simp [h]
      omega

theorem indAddAll_keys (t : String) :
    ∀ (deps : List String) (ind : List (String × Int)),
      (indAddAll t deps ind).map Prod.fst = ind.map Prod.fst := by
  intro deps
  induction deps with
  | nil => intro ind; rfl
  | cons p rest ih =>
    intro ind
    unfold indAddAll
    simp only [List.foldl_cons]
    have := ih (alUpdate t (fun v => v + 1) ind)
    unfold indAddAll at this
    rw [this, alUpdate_keys]

theorem buildGraphLoop_ok (K : List String) :
    ∀ (l : List (String × TaskDef)) (g : List (String × List String))
      (ind : List (String × Int)),
      g.map Prod.fst = K →
      (∀ p ∈ l, ∀ q ∈ p.2.dependencies, q ∈ K) →
      ∃ g' ind', buildGraphLoop l g ind = .ok (g', ind') ∧
        g'.map Prod.fst = K ∧ ind'.map Prod.fst = ind.map Prod.fst ∧
        (∀ q, alGet q g' = (alGet q g).map (fun li => li ++ childrenOf l q)) ∧
        (∀ q, alGet q ind' = (alGet q ind).map (fun v => v + (indContrib l q : Int))) := by
  intro l
  induction l with
  | nil =>
    intro g ind hk _
    refine ⟨g, ind, rfl, hk, rfl, ?_, ?_⟩
    · intro q
      cases h : alGet q g <;> simp [childrenOf]
    · intro q
      cases h : alGet q ind <;> simp [indContrib]
  | cons e rest ih =>
    intro g ind hk hcl
    have hpres : ∀ q ∈ e.2.dependencies, (alGet q g).isSome := by
      intro q hq
      rw [alGet_isSome_iff_mem, hk]
      exact hcl e (by simp) q hq
    have hstep := buildDeps_ok e.1 e.2.dependencies g ind hpres
    have hkA : (graphAppendAll e.1 e.2.dependencies g).map Prod.fst = K := by
      rw [graphAppendAll_keys]
      exact hk
    have hclrest : ∀ p ∈ rest, ∀ q ∈ p.2.dependencies, q ∈ K := by
      intro p hp q hq
      exact hcl p (by simp [hp]) q hq
    rcases ih (graphAppendAll e.1 e.2.dependencies g)
        (indAddAll e.1 e.2.dependencies ind) hkA hclrest with
      ⟨g', ind', hrun, hk', hik', hg', hi'⟩
    refine ⟨g', ind', ?_, hk', ?_, ?_, ?_⟩
    · simp only [buildGraphLoop, hstep]
      exact hrun
    · rw [hik', indAddAll_keys]
    · intro q
      rw [hg' q, graphAppendAll_get]
      have hch : childrenOf (e :: rest) q =
          List.replicate (countKey q e.2.dependencies) e.1 ++ childrenOf rest q := by
        simp [childrenOf, List.flatMap_cons]
      rw [hch]
      cases h : alGet q g <;> simp [List.append_assoc]
    · intro q
      by_cases hq : q = e.1
      · have hic1 : indContrib (e :: rest) e.1 =
            e.2.dependencies.length + indContrib rest e.1 := by
          simp [indContrib]
        rw [hi' q, hq, indAddAll_get_self, hic1]
        cases h : alGet e.1 ind
        · simp [h]
        · simp [h]
          omega
      · have hic2 : indContrib (e :: rest) q = indContrib rest q := by
          have hne : ¬ e.1 = q := fun hx => hq hx.symm
          simp [indContrib, hne]
        rw [hi' q, indAddAll_get_ne e.1 q hq, hic2]

/-- Witness for C9 on the spec's diamond pipeline: four jobs 1..4, roots
push exactly job 1, reverse graph fan-out `a → {b, c} → d`, run status
RUNNING written last. -/
theorem trigger_run_spec_witness :
    (diamondDef.map Prod.fst).Nodup ∧
    (jobsCountWrites (trigger_pipeline_run diamondDef (create_pipeline_run 7 diamondDef)) =
        [diamondDef.length] ∧
     depsWrites (trigger_pipeline_run diamondDef (create_pipeline_run 7 diamondDef)) =
        diamondDef.enum.map (fun q => (q.1 + 1, q.2.2.dependencies.length)) ∧
     revWrites (trigger_pipeline_run diamondDef (create_pipeline_run 7 diamondDef)) =
        diamondDef.enum.map (fun q => (q.1 + 1, childJobIds diamondDef q.2.1)) ∧
     readyPushes (trigger_pipeline_run diamondDef (create_pipeline_run 7 diamondDef)) =
        (diamondDef.enum.filter (fun q => q.2.2.dependencies = [])).map (fun q => q.1 + 1) ∧
     statusWrites (trigger_pipeline_run diamondDef (create_pipeline_run 7 diamondDef)) =
        (diamondDef.enum.filter (fun q => q.2.2.dependencies = [])).map
          (fun q => (q.1 + 1, JobStatus.QUEUED)) ∧
     runStatusWrites (trigger_pipeline_run diamondDef (create_pipeline_run 7 diamondDef)) =
        [PipelineRunStatus.RUNNING] ∧
     (trigger_pipeline_run diamondDef (create_pipeline_run 7 diamondDef)).getLast? =
        some (Effect.setRunStatus PipelineRunStatus.RUNNING)) :=
  ⟨by decide, trigger_run_spec 7 diamondDef (by decide)⟩


theorem countKey_le_one_of_nodup {κ : Type} [DecidableEq κ] :
    ∀ {l : List κ}, l.Nodup → ∀ a, countKey a l ≤ 1 := by
  intro l
  induction l with
  | nil => intro _ a; simp [countKey]
  | cons b rest ih =>
    intro h a
    rw [List.nodup_cons] at h
    by_cases hb : b = a
    · subst hb
      have h0 : countKey b rest = 0 := countKey_eq_zero h.1
      simp [countKey, h0]
    · have hr := ih h.2 a
      simp [countKey, hb]
      exact hr

theorem nodup_of_countKey_le_one {κ : Type} [DecidableEq κ] :
    ∀ {l : List κ}, (∀ a, countKey a l ≤ 1) → l.Nodup := by
  intro l
  induction l with
  | nil => intro _; exact List.nodup_nil
  | cons b rest ih =>
    intro h
    rw [List.nodup_cons]
    constructor
    · intro hmem
      have h1 : 1 ≤ countKey b rest := (countKey_pos_iff_mem b rest).mpr hmem
      have h2 := h b
      simp [countKey] at h2
      omega
    · refine ih (fun a => ?_)
      have h2 := h a
      simp [countKey] at h2
      split_ifs at h2 <;> omega

theorem countNotIn_nil_popped : ∀ l : List String, countNotIn [] l = l.length := by
  intro l
  induction l with
  | nil => rfl
  | cons p rest ih =>
    simp [countNotIn, ih]
    omega

theorem countNotIn_eq_zero_iff (popped : List String) :
    ∀ l : List String, (countNotIn popped l = 0 ↔ ∀ p ∈ l, p ∈ popped) := by
  intro l
  induction l with
  | nil => simp [countNotIn]
  | cons p rest ih =>
    by_cases hp : p ∈ popped
    · simp [countNotIn, hp, ih]
    · simp [countNotIn, hp]

theorem countNotIn_pos (popped l : List String) (p : String) (hp : p ∈ l)
    (hnp : p ∉ popped) : 1 ≤ countNotIn popped l := by
  by_contra h
  have h0 : countNotIn popped l = 0 := by omega
  exact hnp ((countNotIn_eq_zero_iff popped l).mp h0 p hp)

theorem countNotIn_cons (cur : String) (popped : List String) (hcur : cur ∉ popped) :
    ∀ l : List String, countNotIn (cur :: popped) l + countKey cur l = countNotIn popped l := by
  intro l
  induction l with
  | nil => rfl
  | cons p rest ih =>
    by_cases hp : p = cur
    · subst hp
      simp [countNotIn, countKey, hcur]
      omega
    · by_cases hpp : p ∈ popped
      · simp [countNotIn, countKey, hpp, hp]
        omega
      · have hnc : p ∉ cur :: popped := by
          simp [List.mem_cons, hp, hpp]
        simp [countNotIn, countKey, hnc, hp, hpp]
        omega

theorem countNotIn_le_countKey (cur : String) (popped : List String) :
    ∀ l : List String, (∀ p ∈ l, p ∈ cur :: popped) →
      countNotIn popped l ≤ countKey cur l := by
  intro l
  induction l with
  | nil => intro _; simp [countNotIn, countKey]
  | cons p rest ih =>
    intro h
    have hrest := ih (fun q hq => h q (List.mem_cons_of_mem p hq))
    have hp := h p (List.mem_cons_self p rest)
    by_cases hpp : p ∈ popped
    · simp [countNotIn, countKey, hpp]
      split_ifs <;> omega
    · have hpc : p = cur := by
        rcases List.mem_cons.mp hp with h1 | h1
        · exact h1
        · exact absurd h1 hpp
      subst hpc
      simp [countNotIn, countKey, hpp]
      omega

theorem countKey_replicate {κ : Type} [DecidableEq κ] (a b : κ) :
    ∀ n : Nat, countKey a (List.replicate n b) = if b = a then n else 0 := by
  intro n
  induction n with
  | zero => simp [countKey]
  | succ m ih =>
    simp [List.replicate_succ, countKey, ih]
    split_ifs <;> omega

theorem countKey_childrenOf_out (cur : String) :
    ∀ l : List (String × TaskDef), ∀ t, t ∉ keysOf l → countKey t (childrenOf l cur) = 0 := by
  intro l
  induction l with
  | nil => intro t _; rfl
  | cons e rest ih =>
    intro t ht
    have h1 : ¬ e.1 = t := fun h => ht (by simp [keysOf, h])
    have h2 : t ∉ keysOf rest := fun h => ht (List.mem_cons_of_mem e.1 h)
    have hsplit : childrenOf (e :: rest) cur =
        List.replicate (countKey cur e.2.dependencies) e.1 ++ childrenOf rest cur := by
      simp [childrenOf]
    rw [hsplit, countKey_append, countKey_replicate, if_neg h1, ih t h2]

theorem countKey_childrenOf (cur : String) :
    ∀ l : List (String × TaskDef), (keysOf l).Nodup → ∀ t ∈ keysOf l,
      countKey t (childrenOf l cur) = countKey cur (depsOfTask l t) := by
  intro l
  induction l with
  | nil => intro _ t ht; simp [keysOf] at ht
  | cons e rest ih =>
    intro hnd t ht
    have hsplit : childrenOf (e :: rest) cur =
        List.replicate (countKey cur e.2.dependencies) e.1 ++ childrenOf rest cur := by
      simp [childrenOf]
    have hkc : keysOf (e :: rest) = e.1 :: keysOf rest := rfl
    rw [hkc, List.nodup_cons] at hnd
    rw [hsplit, countKey_append, countKey_replicate]
    by_cases he : e.1 = t
    · subst he
      rw [if_pos rfl, countKey_childrenOf_out cur rest e.1 hnd.1]
      have hd : depsOfTask (e :: rest) e.1 = e.2.dependencies := by
        simp [depsOfTask, alGet]
      rw [hd]
      omega
    · rw [if_neg he]
      have htr : t ∈ keysOf rest := by
        rw [hkc, List.mem_cons] at ht
        rcases ht with h | h
        · exact absurd h.symm he
        · exact h
      have hd : depsOfTask (e :: rest) t = depsOfTask rest t := by
        simp [depsOfTask, alGet, he]
      rw [hd, ih hnd.2 t htr]
      omega

theorem indContrib_out : ∀ l : List (String × TaskDef), ∀ t, t ∉ keysOf l →
    indContrib l t = 0 := by
  intro l
  induction l with
  | nil => intro t _; rfl
  | cons e rest ih =>
    intro t ht
    have h1 : ¬ e.1 = t := fun h => ht (by simp [keysOf, h])
    have h2 : t ∉ keysOf rest := fun h => ht (List.mem_cons_of_mem e.1 h)
    have hsplit : indContrib (e :: rest) t =
        (if e.1 = t then e.2.dependencies.length else 0) + indContrib rest t := by
      simp [indContrib]
    rw [hsplit, if_neg h1, ih t h2]

theorem indContrib_self :
    ∀ l : List (String × TaskDef), (keysOf l).Nodup → ∀ t ∈ keysOf l,
      indContrib l t = (depsOfTask l t).length := by
  intro l
  induction l with
  | nil => intro _ t ht; simp [keysOf] at ht
  | cons e rest ih =>
    intro hnd t ht
    have hkc : keysOf (e :: rest) = e.1 :: keysOf rest := rfl
    rw [hkc, List.nodup_cons] at hnd
    have hsplit : indContrib (e :: rest) t =
        (if e.1 = t then e.2.dependencies.length else 0) + indContrib rest t := by
      simp [indContrib]
    rw [hsplit]
    by_cases he : e.1 = t
    · subst he
      rw [if_pos rfl, indContrib_out rest e.1 hnd.1]
      have hd : depsOfTask (e :: rest) e.1 = e.2.dependencies := by
        simp [depsOfTask, alGet]
      rw [hd]
      omega
    · rw [if_neg he]
      have htr : t ∈ keysOf rest := by
        rw [hkc, List.mem_cons] at ht
        rcases ht with h | h
        · exact absurd h.symm he
        · exact h
      have hd : depsOfTask (e :: rest) t = depsOfTask rest t := by
        simp [depsOfTask, alGet, he]
      rw [hd, ih hnd.2 t htr]
      omega

theorem depsOfTask_none {d : List (String × TaskDef)} {t : String}
    (h : alGet t d = none) : depsOfTask d t = [] := by
  simp [depsOfTask, h]

theorem depsOfTask_closed (d : List (String × TaskDef)) (hcl : closedDefn d) (t : String) :
    ∀ p ∈ depsOfTask d t, p ∈ keysOf d := by
  intro p hp
  cases halg : alGet t d with
  | none =>
    rw [depsOfTask_none halg] at hp
    simp at hp
  | some td =>
    have hd : depsOfTask d t = td.dependencies := by simp [depsOfTask, halg]
    rw [hd] at hp
    exact hcl (t, td) (alGet_mem halg) p hp

theorem mem_keys_of_parent (d : List (String × TaskDef)) {p t : String}
    (h : parentOf d p t) : t ∈ keysOf d := by
  unfold parentOf at h
  cases halg : alGet t d with
  | none =>
    rw [depsOfTask_none halg] at h
    simp at h
  | some td =>
    show t ∈ d.map Prod.fst
    rw [← alGet_isSome_iff_mem]
    simp [halg]

theorem hitInd_le_one (t : String) (cs : List String) (ind : List (String × Int)) :
    hitInd t cs ind ≤ 1 := by
  cases h : alGet t ind
  · simp [hitInd, h]
  · simp [hitInd, h]
    split_ifs <;> omega

theorem pc_ind_keys :
    ∀ (cs : List String) (ind : List (String × Int)) (q : List String),
      (processChildren cs ind q).1.map Prod.fst = ind.map Prod.fst := by
  intro cs
  induction cs with
  | nil => intro ind q; rfl
  | cons c cs ih =>
    intro ind q
    simp only [processChildren]
    rw [ih, alUpdate_keys]

theorem pc_ind_get :
    ∀ (cs : List String) (ind : List (String × Int)) (q : List String) (t : String),
      alGet t (processChildren cs ind q).1 =
        (alGet t ind).map (fun v => v - (countKey t cs : Int)) := by
  intro cs
  induction cs with
  | nil =>
    intro ind q t
    simp only [processChildren]
    cases h : alGet t ind
    · simp [h, countKey]
    · simp [h, countKey]
  | cons c cs ih =>
    intro ind q t
    simp only [processChildren]
    rw [ih]
    by_cases hc : c = t
    · subst hc
      rw [alGet_alUpdate_self]
      cases h : alGet c ind
      · simp [h, countKey]
      · simp [h, countKey]
        omega
    · rw [alGet_alUpdate_ne c t _ ind hc]
      cases h : alGet t ind
      · simp [h, countKey, hc]
      · simp [h, countKey, hc]

theorem pc_count :
    ∀ (cs : List String) (ind : List (String × Int)) (q : List String) (t : String),
      countKey t (processChildren cs ind q).2 = countKey t q + hitInd t cs ind := by
  intro cs
  induction cs with
  | nil =>
    intro ind q t
    simp only [processChildren]
    cases h : alGet t ind with
    | none => simp [hitInd, h]
    | some v =>
      have hck : countKey t ([] : List String) = 0 := rfl
      have hno : ¬ (1 ≤ v ∧ v ≤ (countKey t ([] : List String) : Int)) := by
        rw [hck]
        omega
      simp [hitInd, h, hno]
  | cons c cs ih =>
    intro ind q t
    simp only [processChildren]
    rw [ih]
    by_cases hc : c = t
    · subst hc
      cases h : alGet c ind with
      | none =>
        have hupd : alGet c (alUpdate c (fun v => v - 1) ind) = none := by
          rw [alGet_alUpdate_self, h]
          rfl
        simp [hitInd, h, hupd]
      | some v =>
        have hupd : alGet c (alUpdate c (fun v => v - 1) ind) = some (v - 1) := by
          rw [alGet_alUpdate_self, h]
          rfl
        simp only [hitInd, h, hupd, countKey, countKey_append]
        by_cases hv : v - 1 = 0
        · rw [if_pos (by simp [hv])]
          simp [countKey_append, countKey]
          split_ifs <;> omega
        · rw [if_neg (by simp [hv])]
          simp [countKey]
          split_ifs <;> omega
    · have hupd : alGet t (alUpdate c (fun v => v - 1) ind) = alGet t ind :=
        alGet_alUpdate_ne c t _ ind hc
      have h1 : hitInd t cs (alUpdate c (fun v => v - 1) ind) = hitInd t (c :: cs) ind := by
        cases h : alGet t ind with
        | none => simp [hitInd, hupd, h]
        | some v => simp [hitInd, hupd, h, countKey, hc]
      rw [h1]
      by_cases hz : alGet c (alUpdate c (fun v => v - 1) ind) = some 0
      · rw [if_pos hz, countKey_append]
        simp [countKey, hc]
      · rw [if_neg hz]

theorem sumToNat_update_le (c : String) :
    ∀ ind : List (String × Int),
      sumToNat (alUpdate c (fun v => v - 1) ind) ≤ sumToNat ind := by
  intro ind
  induction ind with
  | nil => simp [alUpdate, sumToNat]
  | cons p rest ih =>
    by_cases hp : p.1 = c
    · simp [alUpdate, hp, sumToNat]
    · simp [alUpdate, hp, sumToNat] at ih ⊢
      omega

theorem sumToNat_update_hit (c : String) :
    ∀ ind : List (String × Int), alGet c ind = some 1 →
      sumToNat (alUpdate c (fun v => v - 1) ind) + 1 ≤ sumToNat ind := by
  intro ind
  induction ind with
  | nil => intro h; simp [alGet] at h
  | cons p rest ih =>
    intro h
    by_cases hp : p.1 = c
    · have hv : p.2 = 1 := by
        simp [alGet, hp] at h
        exact h
      simp [alUpdate, hp, sumToNat]
      omega
    · have h2 : alGet c rest = some 1 := by
        simpa [alGet, hp] using h
      simp [alUpdate, hp, sumToNat] at ih ⊢
      have h3 := ih h2
      omega

theorem pc_measure :
    ∀ (cs : List String) (ind : List (String × Int)) (q : List String),
      sumToNat (processChildren cs ind q).1 + (processChildren cs ind q).2.length ≤
        sumToNat ind + q.length := by
  intro cs
  induction cs with
  | nil =>
    intro ind q
    simp only [processChildren]
    omega
  | cons c cs ih =>
    intro ind q
    simp only [processChildren]
    by_cases hz : alGet c (alUpdate c (fun v => v - 1) ind) = some 0
    · rw [if_pos hz]
      have h1 : alGet c ind = some 1 := by
        cases h : alGet c ind with
        | none => rw [alGet_alUpdate_self, h] at hz; simp at hz
        | some v =>
          rw [alGet_alUpdate_self, h] at hz
          simp at hz
          rw [show v = 1 by omega]
      have h2 := sumToNat_update_hit c ind h1
      have h3 := ih (alUpdate c (fun v => v - 1) ind) (q ++ [c])
      simp [List.length_append] at h3
      omega
    · rw [if_neg hz]
      have h2 := sumToNat_update_le c ind
      have h3 := ih (alUpdate c (fun v => v - 1) ind) q
      omega

theorem kahnLoopL_nil (g : List (String × List String)) (fuel : Nat)
    (ind : List (String × Int)) : kahnLoopL g fuel ind [] = [] := by
  cases fuel <;> rfl

theorem kahnLoop_eq_length (g : List (String × List String)) :
    ∀ (fuel : Nat) (ind : List (String × Int)) (queue : List String) (cnt : Nat),
      kahnLoop g fuel ind queue cnt = cnt + (kahnLoopL g fuel ind queue).length := by
  intro fuel
  induction fuel with
  | zero =>
    intro ind queue cnt
    cases queue <;> simp [kahnLoop, kahnLoopL]
  | succ fuel ih =>
    intro ind queue cnt
    cases queue with
    | nil => simp [kahnLoop, kahnLoopL]
    | cons cur rest =>
      simp only [kahnLoop, kahnLoopL]
      rw [ih]
      simp
      omega

theorem revTopo_closed (d : List (String × TaskDef)) :
    ∀ l : List String, RevTopo d l → ∀ t ∈ l, ∀ p ∈ depsOfTask d t, p ∈ l := by
  intro l
  induction l with
  | nil => intro _ t ht; simp at ht
  | cons a rest ih =>
    intro h t ht p hp
    have h2 : (∀ q ∈ depsOfTask d a, q ∈ rest) ∧ RevTopo d rest := h
    rcases List.mem_cons.mp ht with h1 | h1
    · rw [h1] at hp
      exact List.mem_cons_of_mem a (h2.1 p hp)
    · exact List.mem_cons_of_mem a (ih h2.2 t h1 p hp)

theorem revTopo_rank (d : List (String × TaskDef)) :
    ∀ l : List String, RevTopo d l → l.Nodup → ∀ c ∈ l, ∀ p ∈ depsOfTask d c,
      p ∈ l ∧ rankOf c l < rankOf p l := by
  intro l
  induction l with
  | nil => intro _ _ c hc; simp at hc
  | cons a rest ih =>
    intro h hnd c hc p hp
    have h2 : (∀ q ∈ depsOfTask d a, q ∈ rest) ∧ RevTopo d rest := h
    rw [List.nodup_cons] at hnd
    rcases List.mem_cons.mp hc with h1 | h1
    · have hpr : p ∈ rest := h2.1 p (by rw [← h1]; exact hp)
      have hpa : ¬ a = p := by
        intro he
        exact hnd.1 (by rw [he]; exact hpr)
      have hac : a = c := h1.symm
      have hcp : ¬ c = p := by
        rw [← hac]
        exact hpa
      constructor
      · exact List.mem_cons_of_mem a hpr
      · simp [rankOf, hpa, hac, hcp]
    · have hres := ih h2.2 hnd.2 c h1 p hp
      have hca : ¬ a = c := by
        intro he
        exact hnd.1 (by rw [he]; exact h1)
      have hpa : ¬ a = p := by
        intro he
        exact hnd.1 (by rw [he]; exact hres.1)
      constructor
      · exact List.mem_cons_of_mem a hres.1
      · simp [rankOf, hca, hpa]
        omega

theorem transGen_rank (d : List (String × TaskDef)) (l : List String)
    (hrt : RevTopo d l) (hnd : l.Nodup) :
    ∀ a b : String, Relation.TransGen (parentOf d) a b → b ∈ l →
      a ∈ l ∧ rankOf b l < rankOf a l := by
  intro a b h
  induction h with
  | single hr =>
    intro hb
    exact revTopo_rank d l hrt hnd _ hb _ hr
  | tail hab hbc ih =>
    intro hc
    have h1 := revTopo_rank d l hrt hnd _ hc _ hbc
    have h2 := ih h1.1
    exact ⟨h2.1, lt_trans h1.2 h2.2⟩

theorem chain_to_transGen {α : Type} (R : α → α → Prop) :
    ∀ (l1 : List α) (a b : α) (l2 : List α), List.Chain R a (l1 ++ b :: l2) →
      Relation.TransGen R a b := by
  intro l1
  induction l1 with
  | nil =>
    intro a b l2 h
    exact Relation.TransGen.single (List.chain_cons.mp h).1
  | cons x xs ih =>
    intro a b l2 h
    rw [List.cons_append, List.chain_cons] at h
    exact Relation.TransGen.head h.1 (ih x b l2 h.2)

theorem chain_not_nodup_cycle {α : Type} (R : α → α → Prop) :
    ∀ (l : List α) (h : α), List.Chain R h l → ¬ (h :: l).Nodup →
      ∃ x, Relation.TransGen R x x := by
  intro l
  induction l with
  | nil =>
    intro h _ hnd
    exact absurd (List.nodup_cons.mpr ⟨by simp, List.nodup_nil⟩) hnd
  | cons x xs ih =>
    intro h hch hnd
    by_cases hmem : h ∈ x :: xs
    · rcases List.append_of_mem hmem with ⟨s, t, hst⟩
      rw [hst] at hch
      exact ⟨h, chain_to_transGen R s h h t hch⟩
    · have hch2 := (List.chain_cons.mp hch).2
      refine ih x hch2 ?_
      intro hnd2
      exact hnd (List.nodup_cons.mpr ⟨hmem, hnd2⟩)

theorem cycle_of_all_parents (d : List (String × TaskDef)) (S : List String)
    (hne : S ≠ []) (hstep : ∀ t ∈ S, ∃ p ∈ S, parentOf d p t) : hasCycle d := by
  have hbuild : ∀ n : Nat, ∃ (h : String) (l : List String),
      List.Chain (fun a b => parentOf d a b) h l ∧ (h :: l).length = n + 1 ∧
      ∀ x ∈ h :: l, x ∈ S := by
    intro n
    induction n with
    | zero =>
      rcases List.exists_mem_of_ne_nil S hne with ⟨t0, ht0⟩
      refine ⟨t0, [], List.Chain.nil, rfl, ?_⟩
      intro x hx
      rw [List.mem_singleton] at hx
      rw [hx]
      exact ht0
    | succ m ih =>
      rcases ih with ⟨h, l, hc, hlen, hmem⟩
      rcases hstep h (hmem h (List.mem_cons_self h l)) with ⟨p, hpS, hr⟩
      refine ⟨p, h :: l, List.Chain.cons hr hc, ?_, ?_⟩
      · simp at hlen ⊢
        omega
      · intro x hx
        rcases List.mem_cons.mp hx with h1 | h1
        · rw [h1]
          exact hpS
        · exact hmem x h1
  rcases hbuild S.length with ⟨h, l, hc, hlen, hmem⟩
  have hnnd : ¬ (h :: l).Nodup := by
    intro hnd
    have hsub : (h :: l) ⊆ S := fun x hx => hmem x hx
    have hle := (hnd.subperm hsub).length_le
    rw [hlen] at hle
    omega
  rcases chain_not_nodup_cycle (fun a b => parentOf d a b) l h hc hnnd with ⟨x, hx⟩
  exact ⟨x, hx⟩

theorem kahn_step (d : List (String × TaskDef)) (hnd : (keysOf d).Nodup)
    (g : List (String × List String))
    (hg : ∀ t ∈ keysOf d, alGet t g = some (childrenOf d t))
    (cur : String) (rest : List String) (ind : List (String × Int)) (poppedR : List String)
    (inv : KahnInv d poppedR (cur :: rest) ind) :
    KahnInv d (cur :: poppedR)
      (processChildren ((alGet cur g).getD []) ind rest).2
      (processChildren ((alGet cur g).getD []) ind rest).1 := by
  have hcurK : cur ∈ keysOf d := inv.queueKeys cur (List.mem_cons_self cur rest)
  have hcurP : cur ∉ poppedR := inv.queueFresh cur (List.mem_cons_self cur rest)
  have hcdeps : ∀ p ∈ depsOfTask d cur, p ∈ poppedR :=
    ((inv.queueIff cur hcurK).mp (List.mem_cons_self cur rest)).2
  have hch : (alGet cur g).getD [] = childrenOf d cur := by
    rw [hg cur hcurK]
    rfl
  rw [hch]
  have hcurnr : cur ∉ rest := (List.nodup_cons.mp inv.queueNodup).1
  have hrestnd : rest.Nodup := (List.nodup_cons.mp inv.queueNodup).2
  have hhit : ∀ t : String, hitInd t (childrenOf d cur) ind = 1 →
      t ∈ keysOf d ∧ t ∉ cur :: poppedR ∧ (∀ p ∈ depsOfTask d t, p ∈ cur :: poppedR) ∧
      ¬ (∀ p ∈ depsOfTask d t, p ∈ poppedR) := by
    intro t hht
    cases halg : alGet t ind with
    | none => simp [hitInd, halg] at hht
    | some v =>
      have htK : t ∈ keysOf d := by
        have h1 : (alGet t ind).isSome := by
          rw [halg]
          rfl
        rw [alGet_isSome_iff_mem t ind, inv.indKeys] at h1
        exact h1
      have hv : v = ((countNotIn poppedR (depsOfTask d t) : Nat) : Int) := by
        have hs := inv.indSpec t htK
        rw [halg] at hs
        exact Option.some.inj hs
      have hcond : 1 ≤ v ∧ v ≤ (countKey t (childrenOf d cur) : Int) := by
        by_contra hno
        simp [hitInd, halg, hno] at hht
      have hckc : countKey t (childrenOf d cur) = countKey cur (depsOfTask d t) :=
        countKey_childrenOf cur d hnd t htK
      have hCN1 : 1 ≤ countNotIn poppedR (depsOfTask d t) := by
        rw [hv] at hcond
        exact_mod_cast hcond.1
      have hCNle : countNotIn poppedR (depsOfTask d t) ≤ countKey cur (depsOfTask d t) := by
        rw [hv, hckc] at hcond
        exact_mod_cast hcond.2
      have hnall : ¬ (∀ p ∈ depsOfTask d t, p ∈ poppedR) := by
        intro hall
        have h0 := (countNotIn_eq_zero_iff poppedR (depsOfTask d t)).mpr hall
        omega
      have htnp : t ∉ poppedR := by
        intro htp
        exact hnall (revTopo_closed d poppedR inv.revTopo t htp)
      have htnc : ¬ t = cur := by
        intro he
        rw [he] at hnall
        exact hnall hcdeps
      have hdeps : ∀ p ∈ depsOfTask d t, p ∈ cur :: poppedR := by
        have hsum := countNotIn_cons cur poppedR hcurP (depsOfTask d t)
        have h0 : countNotIn (cur :: poppedR) (depsOfTask d t) = 0 := by omega
        exact (countNotIn_eq_zero_iff (cur :: poppedR) (depsOfTask d t)).mp h0
      refine ⟨htK, ?_, hdeps, hnall⟩
      intro hmem
      rcases List.mem_cons.mp hmem with h1 | h1
      · exact htnc h1
      · exact htnp h1
  have hhit2 : ∀ t ∈ keysOf d, t ∉ cur :: poppedR →
      (∀ p ∈ depsOfTask d t, p ∈ cur :: poppedR) →
      ¬ (∀ p ∈ depsOfTask d t, p ∈ poppedR) →
      hitInd t (childrenOf d cur) ind = 1 := by
    intro t htK htnm hdeps hnall
    have halg := inv.indSpec t htK
    have hCN1 : 1 ≤ countNotIn poppedR (depsOfTask d t) := by
      by_contra hlt
      have h0 : countNotIn poppedR (depsOfTask d t) = 0 := by omega
      exact hnall ((countNotIn_eq_zero_iff poppedR (depsOfTask d t)).mp h0)
    have hCNle := countNotIn_le_countKey cur poppedR (depsOfTask d t) hdeps
    have hckc : countKey t (childrenOf d cur) = countKey cur (depsOfTask d t) :=
      countKey_childrenOf cur d hnd t htK
    have hcond : 1 ≤ ((countNotIn poppedR (depsOfTask d t) : Nat) : Int) ∧
        ((countNotIn poppedR (depsOfTask d t) : Nat) : Int) ≤
          (countKey t (childrenOf d cur) : Int) := by
      rw [hckc]
      constructor
      · exact_mod_cast hCN1
      · exact_mod_cast hCNle
    simp [hitInd, halg, hcond]
  have hq_mem : ∀ t : String, t ∈ (processChildren (childrenOf d cur) ind rest).2 ↔
      (t ∈ rest ∨ hitInd t (childrenOf d cur) ind = 1) := by
    intro t
    rw [← countKey_pos_iff_mem, pc_count]
    constructor
    · intro h
      by_cases hr : t ∈ rest
      · exact Or.inl hr
      · right
        have h0 : countKey t rest = 0 := countKey_eq_zero hr
        have hle := hitInd_le_one t (childrenOf d cur) ind
        omega
    · intro h
      rcases h with h | h
      · have h1 := (countKey_pos_iff_mem t rest).mpr h
        omega
      · omega
  refine ⟨?_, ?_, ?_, ?_, ?_, ?_, ?_, ?_, ?_⟩
  · exact List.nodup_cons.mpr ⟨hcurP, inv.poppedNodup⟩
  · intro t ht
    rcases List.mem_cons.mp ht with h1 | h1
    · rw [h1]
      exact hcurK
    · exact inv.poppedKeys t h1
  · refine nodup_of_countKey_le_one (fun a => ?_)
    rw [pc_count]
    have hle := hitInd_le_one a (childrenOf d cur) ind
    by_cases h1 : hitInd a (childrenOf d cur) ind = 1
    · have ha := hhit a h1
      have hanr : a ∉ rest := by
        intro har
        have hq := (inv.queueIff a ha.1).mp (List.mem_cons_of_mem cur har)
        exact ha.2.2.2 hq.2
      have h0 : countKey a rest = 0 := countKey_eq_zero hanr
      omega
    · have h0 : hitInd a (childrenOf d cur) ind = 0 := by omega
      have hr := countKey_le_one_of_nodup hrestnd a
      omega
  · intro t ht
    rw [hq_mem] at ht
    rcases ht with hr | hh
    · exact inv.queueKeys t (List.mem_cons_of_mem cur hr)
    · exact (hhit t hh).1
  · intro t ht
    rw [hq_mem] at ht
    rcases ht with hr | hh
    · intro hmem
      rcases List.mem_cons.mp hmem with h1 | h1
      · rw [h1] at hr
        exact hcurnr hr
      · exact inv.queueFresh t (List.mem_cons_of_mem cur hr) h1
    · exact (hhit t hh).2.1
  · rw [pc_ind_keys, inv.indKeys]
  · intro t htK
    rw [pc_ind_get, inv.indSpec t htK, countKey_childrenOf cur d hnd t htK]
    have hsum := countNotIn_cons cur poppedR hcurP (depsOfTask d t)
    have hred : (some ((countNotIn poppedR (depsOfTask d t) : Nat) : Int)).map
        (fun v => v - (countKey cur (depsOfTask d t) : Int)) =
        some (((countNotIn poppedR (depsOfTask d t) : Nat) : Int) -
          (countKey cur (depsOfTask d t) : Int)) := rfl
    rw [hred]
    congr 1
    omega
  · intro t htK
    rw [hq_mem]
    constructor
    · intro h
      rcases h with hr | hh
      · have hq := (inv.queueIff t htK).mp (List.mem_cons_of_mem cur hr)
        constructor
        · intro hmem
          rcases List.mem_cons.mp hmem with h1 | h1
          · rw [h1] at hr
            exact hcurnr hr
          · exact hq.1 h1
        · intro p hp
          exact List.mem_cons_of_mem cur (hq.2 p hp)
      · have ha := hhit t hh
        exact ⟨ha.2.1, ha.2.2.1⟩
    · rintro ⟨htnm, hdeps⟩
      by_cases hall : ∀ p ∈ depsOfTask d t, p ∈ poppedR
      · left
        have htnp : t ∉ poppedR := fun hp => htnm (List.mem_cons_of_mem cur hp)
        have hq := (inv.queueIff t htK).mpr ⟨htnp, hall⟩
        rcases List.mem_cons.mp hq with h1 | h1
        · exact absurd (by rw [h1]; exact List.mem_cons_self cur poppedR) htnm
        · exact h1
      · right
        exact hhit2 t htK htnm hdeps hall
  · exact ⟨hcdeps, inv.revTopo⟩

theorem filterMapZero_sublist :
    ∀ l : List (String × Int),
      List.Sublist (l.filterMap (fun p => if p.2 = 0 then some p.1 else none))
        (l.map Prod.fst) := by
  intro l
  induction l with
  | nil => simp
  | cons p rest ih =>
    by_cases hp : p.2 = 0
    · have hfa : (fun q : String × Int => if q.2 = 0 then some q.1 else none) p = some p.1 := by
        simp [hp]
      rw [@List.filterMap_cons_some (String × Int) String (fun q : String × Int => if q.2 = 0 then some q.1 else none) p rest p.1 hfa, List.map_cons]
      exact ih.cons₂ p.1
    · have hfa : (fun q : String × Int => if q.2 = 0 then some q.1 else none) p = none := by
        simp [hp]
      rw [@List.filterMap_cons_none (String × Int) String (fun q : String × Int => if q.2 = 0 then some q.1 else none) p rest hfa, List.map_cons]
      exact ih.cons p.1

theorem mem_filterMapZero :
    ∀ l : List (String × Int), (l.map Prod.fst).Nodup → ∀ t : String,
      (t ∈ l.filterMap (fun p => if p.2 = 0 then some p.1 else none) ↔
        alGet t l = some 0) := by
  intro l
  induction l with
  | nil => intro _ t; simp [alGet]
  | cons p rest ih =>
    intro hnd t
    rw [List.map_cons, List.nodup_cons] at hnd
    by_cases hpt : p.1 = t
    · by_cases hz : p.2 = 0
      · have hfa : (fun q : String × Int => if q.2 = 0 then some q.1 else none) p = some p.1 := by
          simp [hz]
        rw [@List.filterMap_cons_some (String × Int) String (fun q : String × Int => if q.2 = 0 then some q.1 else none) p rest p.1 hfa]
        simp [alGet, hpt, hz]
      · have hfa : (fun q : String × Int => if q.2 = 0 then some q.1 else none) p = none := by
          simp [hz]
        rw [@List.filterMap_cons_none (String × Int) String (fun q : String × Int => if q.2 = 0 then some q.1 else none) p rest hfa]
        constructor
        · intro hmem
          have hsub := (filterMapZero_sublist rest).subset hmem
          rw [← hpt] at hsub
          exact absurd hsub hnd.1
        · intro halg
          simp [alGet, hpt, hz] at halg
    · have hih := ih hnd.2 t
      have hne : ¬ t = p.1 := fun h => hpt h.symm
      by_cases hz : p.2 = 0
      · have hfa : (fun q : String × Int => if q.2 = 0 then some q.1 else none) p = some p.1 := by
          simp [hz]
        rw [@List.filterMap_cons_some (String × Int) String (fun q : String × Int => if q.2 = 0 then some q.1 else none) p rest p.1 hfa]
        simp [List.mem_cons, hne, hih, alGet, hpt]
      · have hfa : (fun q : String × Int => if q.2 = 0 then some q.1 else none) p = none := by
          simp [hz]
        rw [@List.filterMap_cons_none (String × Int) String (fun q : String × Int => if q.2 = 0 then some q.1 else none) p rest hfa]
        simp [hih, alGet, hpt]

theorem kahn_run (d : List (String × TaskDef)) (hnd : (keysOf d).Nodup)
    (g : List (String × List String))
    (hg : ∀ t ∈ keysOf d, alGet t g = some (childrenOf d t)) :
    ∀ (fuel : Nat) (ind : List (String × Int)) (queue poppedR : List String),
      KahnInv d poppedR queue ind →
      sumToNat ind + queue.length ≤ fuel →
      ∃ ind2, KahnInv d ((kahnLoopL g fuel ind queue).reverse ++ poppedR) [] ind2 := by
  intro fuel
  induction fuel with
  | zero =>
    intro ind queue poppedR inv hm
    cases queue with
    | nil =>
      refine ⟨ind, ?_⟩
      rw [kahnLoopL_nil]
      simpa using inv
    | cons cur rest =>
      rw [List.length_cons] at hm
      omega
  | succ fuel ih =>
    intro ind queue poppedR inv hm
    cases queue with
    | nil =>
      refine ⟨ind, ?_⟩
      rw [kahnLoopL_nil]
      simpa using inv
    | cons cur rest =>
      have hstep := kahn_step d hnd g hg cur rest ind poppedR inv
      have hms := pc_measure ((alGet cur g).getD []) ind rest
      rw [List.length_cons] at hm
      have hm2 : sumToNat (processChildren ((alGet cur g).getD []) ind rest).1 +
          (processChildren ((alGet cur g).getD []) ind rest).2.length ≤ fuel := by
        omega
      rcases ih _ _ (cur :: poppedR) hstep hm2 with ⟨ind2, hinv⟩
      refine ⟨ind2, ?_⟩
      simp only [kahnLoopL, List.reverse_cons, List.append_assoc, List.cons_append,
        List.nil_append]
      exact hinv

theorem kahn_init (d : List (String × TaskDef)) (hnd : (keysOf d).Nodup)
    (hcl : closedDefn d) :
    ∃ gr ind, buildGraphLoop d (d.map fun p => (p.1, ([] : List String)))
        (d.map fun p => (p.1, (0 : Int))) = .ok (gr, ind) ∧
      (∀ t ∈ keysOf d, alGet t gr = some (childrenOf d t)) ∧
      ind.map Prod.fst = keysOf d ∧
      KahnInv d [] (ind.filterMap fun p => if p.2 = 0 then some p.1 else none) ind := by
  have hk0 : (d.map fun p => (p.1, ([] : List String))).map Prod.fst = keysOf d := by
    simp [keysOf]
  have hi0 : (d.map fun p => (p.1, (0 : Int))).map Prod.fst = keysOf d := by
    simp [keysOf]
  have hcl2 : ∀ p ∈ d, ∀ q ∈ p.2.dependencies, q ∈ keysOf d := hcl
  rcases buildGraphLoop_ok (keysOf d) d _ _ hk0 hcl2 with
    ⟨gr, ind, hrun, hkG, hkI, hgetG, hgetI⟩
  have hg0 : ∀ t ∈ keysOf d, alGet t (d.map fun p => (p.1, ([] : List String))) = some [] := by
    intro t ht
    rcases List.mem_map.mp ht with ⟨p, hp, hpt⟩
    rw [← hpt]
    exact alGet_map_key Prod.fst (fun _ => []) d hnd p hp
  have hi0get : ∀ t ∈ keysOf d, alGet t (d.map fun p => (p.1, (0 : Int))) = some 0 := by
    intro t ht
    rcases List.mem_map.mp ht with ⟨p, hp, hpt⟩
    rw [← hpt]
    exact alGet_map_key Prod.fst (fun _ => (0 : Int)) d hnd p hp
  have hGetG : ∀ t ∈ keysOf d, alGet t gr = some (childrenOf d t) := by
    intro t ht
    rw [hgetG t, hg0 t ht]
    rfl
  have hGetI : ∀ t ∈ keysOf d, alGet t ind = some ((depsOfTask d t).length : Int) := by
    intro t ht
    rw [hgetI t, hi0get t ht]
    have h1 : (some (0 : Int)).map (fun v => v + (indContrib d t : Int)) =
        some ((0 : Int) + (indContrib d t : Int)) := rfl
    rw [h1, indContrib_self d hnd t ht]
    congr 1
    omega
  have hkInd : ind.map Prod.fst = keysOf d := by
    rw [hkI, hi0]
  have hndI : (ind.map Prod.fst).Nodup := by
    rw [hkInd]
    exact hnd
  have hqmem := mem_filterMapZero ind hndI
  have hqsub := filterMapZero_sublist ind
  refine ⟨gr, ind, hrun, hGetG, hkInd, List.nodup_nil, ?_, ?_, ?_, ?_, hkInd, ?_, ?_, ?_⟩
  · intro t ht
    simp at ht
  · exact hndI.sublist hqsub
  · intro t ht
    rw [← hkInd]
    exact hqsub.subset ht
  · intro t _
    simp
  · intro t ht
    rw [hGetI t ht, countNotIn_nil_popped]
  · intro t ht
    rw [hqmem t, hGetI t ht]
    constructor
    · intro h
      have hlen : (depsOfTask d t).length = 0 := by
        have h2 := Option.some.inj h
        exact_mod_cast h2
      rw [List.length_eq_zero] at hlen
      constructor
      · simp
      · intro p hp
        rw [hlen] at hp
        simp at hp
    · rintro ⟨-, hdeps⟩
      have hlen : depsOfTask d t = [] := by
        rcases hd : depsOfTask d t with _ | ⟨p, ps⟩
        · rfl
        · exfalso
          have hp := hdeps p (by rw [hd]; simp)
          simp at hp
      rw [hlen]
      rfl
  · exact True.intro

theorem kahn_complete (d : List (String × TaskDef)) (hnd : (keysOf d).Nodup)
    (hcl : closedDefn d) :
    ∃ gr ind P,
      buildGraphLoop d (d.map fun p => (p.1, ([] : List String)))
        (d.map fun p => (p.1, (0 : Int))) = .ok (gr, ind) ∧
      P = (kahnLoopL gr
          (sumToNat ind + (ind.filterMap fun p => if p.2 = 0 then some p.1 else none).length)
          ind (ind.filterMap fun p => if p.2 = 0 then some p.1 else none)).reverse ∧
      P.Nodup ∧ (∀ t ∈ P, t ∈ keysOf d) ∧ RevTopo d P ∧
      (∀ t ∈ keysOf d, t ∉ P → ¬ ∀ p ∈ depsOfTask d t, p ∈ P) ∧
      kahnLoop gr
        (sumToNat ind + (ind.filterMap fun p => if p.2 = 0 then some p.1 else none).length)
        ind (ind.filterMap fun p => if p.2 = 0 then some p.1 else none) 0 = P.length := by
  rcases kahn_init d hnd hcl with ⟨gr, ind, hrun, hGetG, hkInd, inv0⟩
  have hrr := kahn_run d hnd gr hGetG
      (sumToNat ind + (ind.filterMap fun p => if p.2 = 0 then some p.1 else none).length)
      ind (ind.filterMap fun p => if p.2 = 0 then some p.1 else none) [] inv0 (le_refl _)
  rcases hrr with ⟨ind2, hinv⟩
  simp only [List.append_nil] at hinv
  refine ⟨gr, ind, _, hrun, rfl, hinv.poppedNodup, hinv.poppedKeys, hinv.revTopo, ?_, ?_⟩
  · intro t htK htP hdeps
    have h1 := (hinv.queueIff t htK).mpr ⟨htP, hdeps⟩
    simp at h1
  · rw [kahnLoop_eq_length, List.length_reverse]
    omega

theorem buildGraphLoop_err (K : List String) :
    ∀ (l : List (String × TaskDef)) (g : List (String × List String))
      (ind : List (String × Int)),
      g.map Prod.fst = K →
      ¬ (∀ p ∈ l, ∀ q ∈ p.2.dependencies, q ∈ K) →
      ∃ t dep, buildGraphLoop l g ind = .error (.unknownDependency t dep) ∧
        (∃ td, (t, td) ∈ l ∧ dep ∈ td.dependencies) ∧ dep ∉ K := by
  intro l
  induction l with
  | nil =>
    intro g ind _ hbad
    exact absurd (fun p hp => absurd hp (List.not_mem_nil p)) hbad
  | cons e rest ih =>
    intro g ind hk hbad
    by_cases he : ∀ q ∈ e.2.dependencies, q ∈ K
    · have hpres : ∀ q ∈ e.2.dependencies, (alGet q g).isSome := by
        intro q hq
        rw [alGet_isSome_iff_mem, hk]
        exact he q hq
      have hstep := buildDeps_ok e.1 e.2.dependencies g ind hpres
      have hkA : (graphAppendAll e.1 e.2.dependencies g).map Prod.fst = K := by
        rw [graphAppendAll_keys]
        exact hk
      have hbad2 : ¬ (∀ p ∈ rest, ∀ q ∈ p.2.dependencies, q ∈ K) := by
        intro hall
        apply hbad
        intro p hp
        rcases List.mem_cons.mp hp with h1 | h1
        · rw [h1]
          exact he
        · exact hall p h1
      rcases ih _ (indAddAll e.1 e.2.dependencies ind) hkA hbad2 with
        ⟨t, dep, hres, ⟨td, htd, hdep⟩, hnk⟩
      refine ⟨t, dep, ?_, ⟨td, List.mem_cons_of_mem e htd, hdep⟩, hnk⟩
      simp only [buildGraphLoop, hstep]
      exact hres
    · push_neg at he
      rcases he with ⟨q, hq, hqn⟩
      have hns : ¬ (alGet q g).isSome := by
        rw [alGet_isSome_iff_mem, hk]
        exact hqn
      rcases buildDeps_err e.1 e.2.dependencies g ind ⟨q, hq, hns⟩ with ⟨p, hperr, hpmem, hpns⟩
      refine ⟨e.1, p, ?_, ⟨e.2, ?_, hpmem⟩, ?_⟩
      · simp only [buildGraphLoop, hperr]
      · simp
      · rw [← hk]
        intro hmem
        rw [← alGet_isSome_iff_mem] at hmem
        exact hpns hmem

theorem validate_unknown_of_not_closed (d : List (String × TaskDef))
    (hnd : (keysOf d).Nodup) (hncl : ¬ closedDefn d) :
    ∃ t dep, validate_pipeline_dag d = .error (.unknownDependency t dep) ∧
      t ∈ keysOf d ∧ dep ∈ depsOfTask d t ∧ dep ∉ keysOf d := by
  have hk0 : (d.map fun p => (p.1, ([] : List String))).map Prod.fst = keysOf d := by
    simp [keysOf]
  rcases buildGraphLoop_err (keysOf d) d _ (d.map fun p => (p.1, (0 : Int))) hk0 hncl with
    ⟨t, dep, herr, ⟨td, htd, hdep⟩, hnk⟩
  refine ⟨t, dep, ?_, ?_, ?_, hnk⟩
  · simp only [validate_pipeline_dag, herr]
  · exact List.mem_map.mpr ⟨(t, td), htd, rfl⟩
  · have halg : alGet t d = some td := alGet_self d hnd (t, td) htd
    simp [depsOfTask, halg]
    exact hdep

theorem validate_ok_of_acyclic (d : List (String × TaskDef)) (hnd : (keysOf d).Nodup)
    (hcl : closedDefn d) (hnc : ¬ hasCycle d) : validate_pipeline_dag d = .ok () := by
  rcases kahn_complete d hnd hcl with ⟨gr, ind, P, hrun, hP, hPnd, hPkeys, hPrt, hstuck, hcnt⟩
  have hall : ∀ k ∈ keysOf d, k ∈ P := by
    by_contra hno
    push_neg at hno
    rcases hno with ⟨k, hk, hkP⟩
    have hmemS : ∀ t : String, t ∈ (keysOf d).filter (fun t => t ∉ P) ↔
        t ∈ keysOf d ∧ t ∉ P := by
      intro t
      simp [List.mem_filter]
    refine hnc (cycle_of_all_parents d ((keysOf d).filter (fun t => t ∉ P)) ?_ ?_)
    · intro h0
      have hkS := (hmemS k).mpr ⟨hk, hkP⟩
      rw [h0] at hkS
      simp at hkS
    · intro t htS
      rcases (hmemS t).mp htS with ⟨htK, htP⟩
      have hnot := hstuck t htK htP
      push_neg at hnot
      rcases hnot with ⟨p, hp, hpP⟩
      exact ⟨p, (hmemS p).mpr ⟨depsOfTask_closed d hcl t p hp, hpP⟩, hp⟩
  have hkl : (keysOf d).length = d.length := by simp [keysOf]
  have hle1 := (hPnd.subperm (fun x hx => hPkeys x hx)).length_le
  have hle2 := (hnd.subperm (fun x hx => hall x hx)).length_le
  have hlen : P.length = d.length := by omega
  simp only [validate_pipeline_dag, hrun]
  have hqne : ¬ ((ind.filterMap fun p => if p.2 = 0 then some p.1 else none) = [] ∧
      ¬ d = []) := by
    rintro ⟨hq0, hdne⟩
    rcases List.exists_mem_of_ne_nil d hdne with ⟨e, he⟩
    have hkK : e.1 ∈ keysOf d := List.mem_map.mpr ⟨e, he, rfl⟩
    have hkPm := hall e.1 hkK
    rw [hP, hq0, kahnLoopL_nil] at hkPm
    simp at hkPm
  rw [if_neg hqne, hcnt, hlen, if_neg (by simp)]

theorem validate_cycle_of_cyclic (d : List (String × TaskDef)) (hnd : (keysOf d).Nodup)
    (hcl : closedDefn d) (hc : hasCycle d) : validate_pipeline_dag d = .error .cycle := by
  rcases kahn_complete d hnd hcl with ⟨gr, ind, P, hrun, hP, hPnd, hPkeys, hPrt, hstuck, hcnt⟩
  rcases hc with ⟨t, htc⟩
  have htK : t ∈ keysOf d := by
    cases htc with
    | single hr => exact mem_keys_of_parent d hr
    | tail hab hbc => exact mem_keys_of_parent d hbc
  simp only [validate_pipeline_dag, hrun]
  by_cases hq : (ind.filterMap fun p => if p.2 = 0 then some p.1 else none) = [] ∧ ¬ d = []
  · rw [if_pos hq]
  · rw [if_neg hq]
    have hne : ¬ (kahnLoop gr
        (sumToNat ind + (ind.filterMap fun p => if p.2 = 0 then some p.1 else none).length)
        ind (ind.filterMap fun p => if p.2 = 0 then some p.1 else none) 0 = d.length) := by
      rw [hcnt]
      intro heq
      have hkl : (keysOf d).length = d.length := by simp [keysOf]
      have hsubp := hPnd.subperm (fun x hx => hPkeys x hx)
      have hperm := hsubp.perm_of_length_le (by omega)
      have htP : t ∈ P := hperm.mem_iff.mpr htK
      have hr := transGen_rank d P hPrt hPnd t t htc htP
      exact absurd hr.2 (lt_irrefl _)
    rw [if_pos hne]

/-- C2: pipeline submission validates the definition with Kahn's algorithm.
For a definition with distinct task ids: (1) if some dependency names a
non-existent task, validation fails with an `UnknownDependency` error naming a
genuinely offending task and dependency; (2) if every dependency exists and
the definition has a cycle, validation fails with `Cycle` (the no-roots
degenerate check and the popped-count check both feed this error); (3) if
every dependency exists and there is no cycle, validation succeeds; and (4)
at the API level, for a fresh pipeline name, a cyclic definition is rejected
with HTTP 400 carrying the `Cycle` error and nothing is persisted, while a
valid one is accepted and persisted. -/
theorem validate_dag_correct (d : List (String × TaskDef)) (hnd : (keysOf d).Nodup) :
    (¬ closedDefn d →
      ∃ t dep, validate_pipeline_dag d = .error (.unknownDependency t dep) ∧
        t ∈ keysOf d ∧ dep ∈ depsOfTask d t ∧ dep ∉ keysOf d) ∧
    (closedDefn d → hasCycle d → validate_pipeline_dag d = .error .cycle) ∧
    (closedDefn d → ¬ hasCycle d → validate_pipeline_dag d = .ok ()) ∧
    (∀ (db : AppDB) (name : String), alGet name db.pipelines = none →
      (closedDefn d → hasCycle d →
        handle_pipeline_create db name d = .error (.badRequest .cycle)) ∧
      (closedDefn d → ¬ hasCycle d →
        handle_pipeline_create db name d = .ok ⟨db.pipelines ++ [(name, d)]⟩)) := by
  refine ⟨validate_unknown_of_not_closed d hnd,
    fun hcl hc => validate_cycle_of_cyclic d hnd hcl hc,
    fun hcl hnc => validate_ok_of_acyclic d hnd hcl hnc, ?_⟩
  intro db name hfree
  have hnone : ¬ ((alGet name db.pipelines).isSome = true) := by
    simp [hfree]
  constructor
  · intro hcl hc
    unfold handle_pipeline_create
    rw [if_neg hnone, validate_cycle_of_cyclic d hnd hcl hc]
  · intro hcl hnc
    unfold handle_pipeline_create
    rw [if_neg hnone, validate_ok_of_acyclic d hnd hcl hnc]

/-- Witness for C2 on the two-task chain `{a: [], b: [a]}`: the task ids are
distinct, every dependency names an existing task, the definition is acyclic,
and the validator accepts it, via the claim theorem. -/
theorem validate_dag_correct_witness :
    (keysOf chainDef).Nodup ∧ closedDefn chainDef ∧ ¬ hasCycle chainDef ∧
    validate_pipeline_dag chainDef = .ok () := by
  have hnd : (keysOf chainDef).Nodup := by decide
  have hcl : closedDefn chainDef := by
    unfold closedDefn
    decide
  have hkey : ∀ a b : String, parentOf chainDef a b → b = "b" ∧ a = "a" := by
    intro a b h
    unfold parentOf at h
    by_cases hbb : ("b" : String) = b
    · have hd : depsOfTask chainDef "b" = ["a"] := rfl
      rw [← hbb, hd] at h
      simp at h
      exact ⟨hbb.symm, h⟩
    · by_cases hba : ("a" : String) = b
      · have hd : depsOfTask chainDef "a" = [] := rfl
        rw [← hba, hd] at h
        simp at h
      · have hd : depsOfTask chainDef b = [] := by
          simp [depsOfTask, chainDef, alGet, hba, hbb]
        rw [hd] at h
        simp at h
  have hnc : ¬ hasCycle chainDef := by
    rintro ⟨t, ht⟩
    have htg : ∀ x y : String, Relation.TransGen (parentOf chainDef) x y →
        y = "b" ∧ x = "a" := by
      intro x y h
      induction h with
      | single hr => exact hkey _ _ hr
      | tail hab hbc ih =>
        rcases hkey _ _ hbc with ⟨hy, hmid⟩
        have hab2 : ("a" : String) = "b" := by
          rw [← hmid]
          exact ih.1
        exact absurd hab2 (by decide)
    rcases htg t t ht with ⟨h1, h2⟩
    rw [h2] at h1
    exact absurd h1 (by decide)
  exact ⟨hnd, hcl, hnc, (validate_dag_correct chainDef hnd).2.2.1 hcl hnc⟩

end Metropolis
